import Mathlib

/-
Verification of Replete's module analysis, REPL-ization, resolution and
versioning core against its specification.

The JavaScript source is shallowly embedded: strings are lists of characters,
JSON manifest values are a JValue inductive, the acorn AST is modelled by
inductives carrying the start/end offsets the code reads, and the stateful
version registry and CMDL supervisor are explicit state-transition functions.
Machine arithmetic (the SHA-1 digest) is carried out on Nat with explicit
reduction modulo 2^32.
-/

set_option maxRecDepth 80000
set_option maxHeartbeats 4000000

namespace Replete

/-- Shorthand: a JS string, modelled as its list of characters. -/
abbrev Str := List Char

/-- Convert a Lean string literal to the model's string type. -/
def cs (s : String) : Str := s.toList

/-- Number of newline characters in a string; a string with k newlines
    has k + 1 lines, so preserving newline count preserves line count. -/
def countNL (s : Str) : Nat := s.count '\n'

/-- JS String.prototype.slice with non-negative clamped indices:
    slice(a, b) takes the characters in positions [a, b). -/
def jsSlice (s : Str) (a b : Nat) : Str := (s.take b).drop a

/-- JS String.prototype.slice with only a start index. -/
def jsSliceFrom (s : Str) (a : Nat) : Str := s.drop a

/-- Reduction modulo 2^32, the wrap-around of JS 32-bit integer results. -/
def mask32 (n : Nat) : Nat := n % 4294967296

/-- Rotate a 32-bit word left by k bits. -/
def rotl32 (n : Nat) (k : Nat) : Nat :=
  mask32 ((n <<< k) ||| (n >>> (32 - k)))

/-- Bitwise complement on 32 bits. -/
def bnot32 (n : Nat) : Nat := 4294967295 ^^^ n

/-- UTF-8 encoding of one character, as produced by TextEncoder
    (src: repl.js utf8_encoder). -/
def utf8Char (c : Char) : List Nat :=
  let n := c.toNat
  if n < 128 then [n]
  else if n < 2048 then [192 ||| (n >>> 6), 128 ||| (n &&& 63)]
  else if n < 65536 then
    [224 ||| (n >>> 12), 128 ||| ((n >>> 6) &&& 63), 128 ||| (n &&& 63)]
  else
    [240 ||| (n >>> 18), 128 ||| ((n >>> 12) &&& 63),
     128 ||| ((n >>> 6) &&& 63), 128 ||| (n &&& 63)]

/-- UTF-8 encoding of a string. -/
def utf8 (s : Str) : List Nat := s.flatMap utf8Char

/-- SHA-1 message padding: a 0x80 byte, zeros to 56 mod 64, then the
    64-bit big-endian bit length. -/
def sha1Pad (msg : List Nat) : List Nat :=
  let len := msg.length
  let zeros := (119 - (len % 64)) % 64
  msg ++ [128] ++ List.replicate zeros 0
      ++ [((len * 8) >>> 56) % 256, ((len * 8) >>> 48) % 256,
          ((len * 8) >>> 40) % 256, ((len * 8) >>> 32) % 256,
          ((len * 8) >>> 24) % 256, ((len * 8) >>> 16) % 256,
          ((len * 8) >>> 8) % 256, (len * 8) % 256]

/-- Split a byte list into 64-byte chunks (fuel-indexed so that it reduces
    definitionally; the fuel is the list length, always sufficient). -/
def chunks64Aux : Nat → List Nat → List (List Nat)
| _, [] => []
| 0, _ :: _ => []
| fuel + 1, b :: rest =>
  ((b :: rest).take 64) :: chunks64Aux fuel ((b :: rest).drop 64)

/-- Split a byte list into 64-byte chunks. -/
def chunks64 (l : List Nat) : List (List Nat) := chunks64Aux l.length l

/-- Big-endian 32-bit words of a chunk. -/
def words16 : List Nat → List Nat
| b0 :: b1 :: b2 :: b3 :: rest =>
  ((b0 <<< 24) ||| (b1 <<< 16) ||| (b2 <<< 8) ||| b3) :: words16 rest
| _ => []

/-- Extend the 16-word schedule to 80 words. -/
def expandW : Nat → List Nat → List Nat
| 0, w => w
| k + 1, w =>
  expandW k (w ++ [rotl32
    ((w.getD (w.length - 3) 0) ^^^ (w.getD (w.length - 8) 0)
      ^^^ (w.getD (w.length - 14) 0) ^^^ (w.getD (w.length - 16) 0)) 1])

/-- The five 32-bit registers of the SHA-1 compression function. -/
structure Sha1State where
  a : Nat
  b : Nat
  c : Nat
  d : Nat
  e : Nat
deriving Repr, DecidableEq

/-- One SHA-1 round, taking the round index and schedule word. -/
def sha1Round (st : Sha1State) (iw : Nat × Nat) : Sha1State :=
  let i := iw.1
  let w := iw.2
  let f :=
    if i < 20 then (st.b &&& st.c) ||| ((bnot32 st.b) &&& st.d)
    else if i < 40 then st.b ^^^ st.c ^^^ st.d
    else if i < 60 then (st.b &&& st.c) ||| (st.b &&& st.d) ||| (st.c &&& st.d)
    else st.b ^^^ st.c ^^^ st.d
  let k :=
    if i < 20 then 1518500249
    else if i < 40 then 1859775393
    else if i < 60 then 2400959708
    else 3395469782
  let temp := mask32 (rotl32 st.a 5 + f + st.e + k + w)
  ⟨temp, st.a, rotl32 st.b 30, st.c, st.d⟩

/-- Process one 64-byte chunk. -/
def sha1Chunk (h : Sha1State) (chunk : List Nat) : Sha1State :=
  let w := expandW 64 (words16 chunk)
  let st := (w.enum).foldl sha1Round h
  ⟨mask32 (h.a + st.a), mask32 (h.b + st.b), mask32 (h.c + st.c),
   mask32 (h.d + st.d), mask32 (h.e + st.e)⟩

/-- Final register state of SHA-1 over a byte string. -/
def sha1Final (msg : List Nat) : Sha1State :=
  (chunks64 (sha1Pad msg)).foldl sha1Chunk
    ⟨1732584193, 4023233417, 2562383102, 271733878, 3285377520⟩

/-- SHA-1 of a byte string, as the five 32-bit result words h0..h4. -/
def sha1Words (msg : List Nat) : List Nat :=
  [(sha1Final msg).a, (sha1Final msg).b, (sha1Final msg).c,
   (sha1Final msg).d, (sha1Final msg).e]

/-- Byte swap of a 32-bit word. The ArrayBuffer produced by
    crypto.subtle.digest holds the digest big-endian; the code reads it
    through a Uint32Array, which is little-endian on every platform Replete
    supports, so each word comes out byte-swapped. -/
def bswap32 (n : Nat) : Nat :=
  ((n % 256) <<< 24) ||| (((n >>> 8) % 256) <<< 16)
    ||| (((n >>> 16) % 256) <<< 8) ||| ((n >>> 24) % 256)

/-- A lowercase hex digit. -/
def hexDigit (n : Nat) : Char :=
  if n < 10 then Char.ofNat (48 + n) else Char.ofNat (87 + n)

/-- JS Number.prototype.toString(16) for naturals (fuel-indexed; 32 digits
    of fuel cover every 32-bit word). -/
def toHexAux : Nat → Nat → List Char
| _, 0 => []
| n, fuel + 1 =>
  if n < 16 then [hexDigit n]
  else toHexAux (n / 16) fuel ++ [hexDigit (n % 16)]

/-- JS Number.prototype.toString(16). -/
def toHex (n : Nat) : List Char := toHexAux n 32

/-- JS String.prototype.padStart(5, "0"). -/
def padStart5 (l : Str) : Str :=
  List.replicate (5 - l.length) '0' ++ l

/-- src: repl.js digest. Arguments are joined with commas (Array.join
    renders undefined as the empty string), UTF-8 encoded, SHA-1 hashed, and
    the five digest words (read little-endian) are hex-rendered with
    padStart(5, "0") and concatenated. -/
def digest (args : List (Option Str)) : Str :=
  let text := ((args.map (fun a => a.getD [])).intersperse [',']).flatten
  ((sha1Words (utf8 text)).map (fun w => padStart5 (toHex (bswap32 w)))).flatten

/-
Length bounds for the digest rendering (claim C9).
-/

theorem mask32_lt (n : Nat) : mask32 n < 4294967296 :=
  Nat.mod_lt _ (by norm_num)

theorem bswap32_lt (n : Nat) : bswap32 n < 4294967296 := by
  have h256 : ∀ m : Nat, m % 256 < 256 := fun m => Nat.mod_lt _ (by norm_num)
  have h1 : (n % 256) <<< 24 < 2 ^ 32 := by
    rw [Nat.shiftLeft_eq]
    calc (n % 256) * 2 ^ 24 < 256 * 2 ^ 24 := by
          exact (Nat.mul_lt_mul_right (by norm_num)).mpr (h256 n)
    _ ≤ 2 ^ 32 := by norm_num
  have h2 : ((n >>> 8) % 256) <<< 16 < 2 ^ 32 := by
    rw [Nat.shiftLeft_eq]
    calc ((n >>> 8) % 256) * 2 ^ 16 < 256 * 2 ^ 16 := by
          exact (Nat.mul_lt_mul_right (by norm_num)).mpr (h256 _)
    _ ≤ 2 ^ 32 := by norm_num
  have h3 : ((n >>> 16) % 256) <<< 8 < 2 ^ 32 := by
    rw [Nat.shiftLeft_eq]
    calc ((n >>> 16) % 256) * 2 ^ 8 < 256 * 2 ^ 8 := by
          exact (Nat.mul_lt_mul_right (by norm_num)).mpr (h256 _)
    _ ≤ 2 ^ 32 := by norm_num
  have h4 : (n >>> 24) % 256 < 2 ^ 32 := lt_trans (h256 _) (by norm_num)
  have : bswap32 n < 2 ^ 32 :=
    Nat.or_lt_two_pow (Nat.or_lt_two_pow (Nat.or_lt_two_pow h1 h2) h3) h4
  simpa using this

theorem sha1Chunk_bounded (h : Sha1State) (chunk : List Nat) :
    (sha1Chunk h chunk).a < 4294967296 ∧ (sha1Chunk h chunk).b < 4294967296
      ∧ (sha1Chunk h chunk).c < 4294967296 ∧ (sha1Chunk h chunk).d < 4294967296
      ∧ (sha1Chunk h chunk).e < 4294967296 := by
  simp only [sha1Chunk]
  exact ⟨mask32_lt _, mask32_lt _, mask32_lt _, mask32_lt _, mask32_lt _⟩

theorem foldl_sha1Chunk_bounded (l : List (List Nat)) (st : Sha1State)
    (hst : st.a < 4294967296 ∧ st.b < 4294967296 ∧ st.c < 4294967296
      ∧ st.d < 4294967296 ∧ st.e < 4294967296) :
    (l.foldl sha1Chunk st).a < 4294967296
      ∧ (l.foldl sha1Chunk st).b < 4294967296
      ∧ (l.foldl sha1Chunk st).c < 4294967296
      ∧ (l.foldl sha1Chunk st).d < 4294967296
      ∧ (l.foldl sha1Chunk st).e < 4294967296 := by
  induction l generalizing st with
  | nil => simpa using hst
  | cons c rest ih =>
    simp only [List.foldl_cons]
    exact ih _ (sha1Chunk_bounded st c)

theorem sha1Final_bounded (msg : List Nat) :
    (sha1Final msg).a < 4294967296 ∧ (sha1Final msg).b < 4294967296
      ∧ (sha1Final msg).c < 4294967296 ∧ (sha1Final msg).d < 4294967296
      ∧ (sha1Final msg).e < 4294967296 :=
  foldl_sha1Chunk_bounded (chunks64 (sha1Pad msg))
    ⟨1732584193, 4023233417, 2562383102, 271733878, 3285377520⟩
    (by norm_num)

theorem toHexAux_length_le :
    ∀ fuel k n, n < 16 ^ k → 1 ≤ k → k ≤ fuel →
      (toHexAux n fuel).length ≤ k := by
  intro fuel
  induction fuel with
  | zero => intro k n _ h1 h2; omega
  | succ fuel ih =>
    intro k n hn h1 hk
    by_cases h : n < 16
    · simp [toHexAux, h]; omega
    · have hk2 : 2 ≤ k := by
        rcases Nat.lt_or_ge k 2 with hlt | hge
        · interval_cases k <;> simp_all <;> omega
        · exact hge
      have hdiv : n / 16 < 16 ^ (k - 1) := by
        rw [Nat.div_lt_iff_lt_mul (by norm_num)]
        calc n < 16 ^ k := hn
        _ = 16 ^ (k - 1) * 16 := by
              rw [← pow_succ]
              congr 1
              omega
      have := ih (k - 1) (n / 16) hdiv (by omega) (by omega)
      simp only [toHexAux, if_neg h, List.length_append, List.length_cons,
        List.length_nil]
      omega

theorem padStart5_length (l : Str) :
    (padStart5 l).length = max 5 l.length := by
  simp only [padStart5, List.length_append, List.length_replicate]
  omega

theorem word_render_length (w : Nat) (hw : w < 4294967296) :
    5 ≤ (padStart5 (toHex (bswap32 w))).length
      ∧ (padStart5 (toHex (bswap32 w))).length ≤ 8 := by
  have h8 : (toHex (bswap32 w)).length ≤ 8 := by
    apply toHexAux_length_le 32 8
    · have := bswap32_lt w
      norm_num at this ⊢
      omega
    · omega
    · omega
  rw [padStart5_length]
  omega

/-- C9: the amended claim. The digest is a hex string whose length always
    lies between 25 and 40 characters, but it is not one fixed length: each
    of the five 32-bit digest words is rendered by toString(16) padded to at
    least five digits, so a word with high-order zero bits shortens the
    output (padStart(5) does not fix the width of a 32-bit word, whose hex
    form has up to eight digits). -/
theorem C9_digest_length_bounded (args : List (Option Str)) :
    25 ≤ (digest args).length ∧ (digest args).length ≤ 40 := by
  obtain ⟨ba, bb, bc, bd, be⟩ := sha1Final_bounded
    (utf8 (((args.map (fun a => a.getD [])).intersperse [',']).flatten))
  have ha' := word_render_length _ ba
  have hb' := word_render_length _ bb
  have hc' := word_render_length _ bc
  have hd' := word_render_length _ bd
  have he' := word_render_length _ be
  simp only [digest, sha1Words, List.map_cons, List.map_nil,
    List.flatten_cons, List.flatten_nil, List.length_append, List.length_nil,
    List.append_nil]
  omega

/-- C9 counterexample: the claim as stated is false, because the rendered
    digest length is not the same for all inputs. digest(["a"]) has 40
    characters while digest(["x"]) has 39 (its fifth word has a high-order
    zero nibble). -/
theorem C9_digest_length_varies :
    (digest [some (cs "a")]).length = 40
      ∧ (digest [some (cs "x")]).length = 39 := by
  constructor <;> decide

/-
Package manifest values and the exports resolution helpers
(src: node_resolve.js unwrap_export, glob_map, internalize).
-/

/-- A JSON value found in a package manifest, together with the JS
    undefined produced by access to a missing property. -/
inductive JValue where
| undefv : JValue
| nullv : JValue
| boolv : Bool → JValue
| numv : Int → JValue
| str : Str → JValue
| arr : List JValue → JValue
| obj : List (Str × JValue) → JValue

mutual

/-- Structural size of a manifest value, used as fuel for unwrap_export. -/
def jsize : JValue → Nat
| .undefv => 1
| .nullv => 1
| .boolv _ => 1
| .numv _ => 1
| .str _ => 1
| .arr l => 1 + jsizeList l
| .obj fields => 1 + jsizeFields fields

/-- Structural size of a list of manifest values. -/
def jsizeList : List JValue → Nat
| [] => 0
| x :: rest => 1 + jsize x + jsizeList rest

/-- Structural size of an object's fields. -/
def jsizeFields : List (Str × JValue) → Nat
| [] => 0
| f :: rest => 1 + jsize f.2 + jsizeFields rest

end

/-- First binding of a key in an object's fields; undefined when absent. -/
def lookupField : List (Str × JValue) → Str → JValue
| [], _ => .undefv
| (k, v) :: rest, key => if k = key then v else lookupField rest key

/-- JS truthiness: undefined, null, false, 0 and the empty string are
    falsy; every object and array is truthy. -/
def truthy : JValue → Bool
| .undefv => false
| .nullv => false
| .boolv b => b
| .numv n => n != 0
| .str s => !s.isEmpty
| .arr _ => true
| .obj _ => true

/-- JS property access value[key]: missing keys and non-object receivers
    yield undefined. -/
def getProp : JValue → Str → JValue
| .obj fields, key => lookupField fields key
| _, _ => .undefv

/-- The JS or-chain over the import, module and the fallback branch of a
    conditional object: the import branch if truthy, else the module
    branch if truthy, else whatever the fallback branch holds (possibly
    undefined or falsy). -/
def importModuleDefault (fields : List (Str × JValue)) : JValue :=
  if truthy (lookupField fields (cs "import")) then
    lookupField fields (cs "import")
  else if truthy (lookupField fields (cs "module")) then
    lookupField fields (cs "module")
  else lookupField fields (cs "default")

/-- src: node_resolve.js unwrap_export, written with explicit fuel so that
    it reduces definitionally (the wrapper below always supplies enough).
    A string is returned as it is; an array unwraps to its first element
    (an empty array unwraps undefined); a truthy object unwraps
    value.import || value.module || value.default. Everything else falls
    off the end of the function: undefined. A truthy non-object primitive
    also ends at undefined, because property access on it yields
    undefined, so those branches are collapsed into the final case. -/
def unwrapExportFuel : Nat → JValue → Option Str
| 0, _ => none
| fuel + 1, v =>
  match v with
  | .str s => some s
  | .arr [] => none
  | .arr (x :: _) => unwrapExportFuel fuel x
  | .obj fields => unwrapExportFuel fuel (importModuleDefault fields)
  | _ => none

/-- src: node_resolve.js unwrap_export. -/
def unwrap_export (v : JValue) : Option Str := unwrapExportFuel (jsize v) v

/-- JS nullish coalescing a ?? b. -/
def jsNullish : JValue → JValue → JValue
| .undefv, b => b
| .nullv, b => b
| a, _ => a

/-- JS String.prototype.split(sep) for a one-character separator. The
    result is never empty; splitting the empty string yields one empty
    part, like in JS. -/
def jsSplitChar (sep : Char) : Str → List Str
| [] => [[]]
| c :: rest =>
  match jsSplitChar sep rest with
  | [] => [[]]
  | h :: t => if c = sep then [] :: h :: t else (c :: h) :: t

/-- The captured middle in glob_map: string.slice(fromPart.length,
    fromTail.length > 0 ? -fromTail.length : undefined). Nat
    subtraction clamps at zero exactly as the JS negative index does. -/
def globFilling (string fromPart fromTail : Str) : Str :=
  if fromTail.length > 0 then
    jsSlice string fromPart.length (string.length - fromTail.length)
  else jsSliceFrom string fromPart.length

/-- src: node_resolve.js glob_map, over Object.entries of the mappings.
    Entries whose key has no star are passed over, as are matching entries
    whose value is a string with no star; the first entry whose key has a
    star, whose prefix and suffix enclose the string and whose value has a
    star produces the result. A matching entry whose value is not a string
    throws (to.split is not a function), modelled as the error case. -/
def glob_map (string : Str) : List (Str × JValue) → Except Unit (Option Str)
| [] => .ok none
| (frm, toVal) :: rest =>
  match jsSplitChar '*' frm with
  | [] => glob_map string rest
  | [_] => glob_map string rest
  | fromPart :: fromTail :: _ =>
    if fromPart.isPrefixOf string && fromTail.isSuffixOf string then
      match toVal with
      | .str t =>
        match jsSplitChar '*' t with
        | toPart :: toTail :: _ =>
          .ok (some (toPart ++ globFilling string fromPart fromTail
            ++ toTail))
        | _ => glob_map string rest
      | _ => .error ()
    else glob_map string rest

/-- Object.entries of an exports value. For a non-object the JS entries
    are index-keyed string fragments, none of which contains a star, so
    glob_map scans them to no effect; they are modelled as no entries. -/
def entriesOf : JValue → List (Str × JValue)
| .obj fields => fields
| _ => []

/-- The recognized fields of a parsed package.json. The main and module
    fields are modelled as strings (their JSON shape is not constrained by
    the claims); an absent field is none. -/
structure Manifest where
  exports : Option JValue
  main : Option Str
  module : Option Str

/-- src: node_resolve.js internalize. -/
def internalize (external : Str) (manifest : Manifest) :
    Except Unit (Option Str) :=
  match manifest.exports with
  | some ex =>
    if external = cs "." then
      .ok (unwrap_export (jsNullish (getProp ex (cs ".")) ex))
    else
      match unwrap_export (getProp ex external) with
      | some s => .ok (some s)
      | none => glob_map external (entriesOf ex)
  | none =>
    .ok (some (if external = cs "." then
      manifest.module.getD (manifest.main.getD (cs "./index.js"))
    else external))

/-- Modelled from the claim's words, for comparison with unwrap_export:
    take the first present (not first truthy) among import, module and
    default, ignore other conditions, unwrap arrays to their first
    element, return string leaves unchanged, and yield undefined when none
    of the recognized conditions is present. -/
def firstPresent (fields : List (Str × JValue)) : Option JValue :=
  match lookupField fields (cs "import") with
  | .undefv =>
    match lookupField fields (cs "module") with
    | .undefv =>
      match lookupField fields (cs "default") with
      | .undefv => none
      | v => some v
    | v => some v
  | v => some v

/-- Modelled from the claim's words (see firstPresent). -/
def unwrapExportSpecFuel : Nat → JValue → Option Str
| 0, _ => none
| fuel + 1, v =>
  match v with
  | .str s => some s
  | .arr [] => none
  | .arr (x :: _) => unwrapExportSpecFuel fuel x
  | .obj fields =>
    match firstPresent fields with
    | some w => unwrapExportSpecFuel fuel w
    | none => none
  | _ => none

/-- Modelled from the claim's words: unwrap_export as the claim describes
    it, taking the first present recognized condition. -/
def unwrap_export_spec (v : JValue) : Option Str :=
  unwrapExportSpecFuel (jsize v) v

/-- The exports object of the package "exports" in the source's own test
    manifest (node_resolve.js, import.meta.main block). -/
def testExports : JValue :=
  .obj [
    (cs ".", .obj [
      (cs "types", .str (cs "./dist/types.d.ts")),
      (cs "import", .obj [
        (cs "node", .str (cs "./dist/import_node.mjs")),
        (cs "default", .str (cs "./dist/import_default.js"))]),
      (cs "require", .str (cs "./dist/require.js"))]),
    (cs "./default.js", .obj [
      (cs "require", .str (cs "./dist/default.cjs")),
      (cs "default", .str (cs "./dist/default.mjs"))]),
    (cs "./extensionless", .str (cs "./dist/extensioned.js")),
    (cs "./wildcard/*", .str (cs "./dist/wildcard/*")),
    (cs "./wildcard_ext/*.js", .str (cs "./dist/wildcard_ext/*.js")),
    (cs "./asset.svg", .str (cs "./dist/asset.svg"))]

/-- The manifest of the package "exports" in the source's own test
    fixture. -/
def testManifest : Manifest :=
  ⟨some testExports, some (cs "./main.js"), some (cs "./module.js")⟩

/-
Fuel adequacy for unwrap_export: the wrapper's fuel (the structural size
of the value) is always enough, so the function satisfies the recursion
equations of the JS original.
-/

theorem jsize_pos (v : JValue) : 1 ≤ jsize v := by
  cases v <;> simp [jsize]

theorem unwrapExportFuel_undef (f : Nat) :
    unwrapExportFuel f .undefv = none := by
  cases f <;> rfl

theorem jsize_lookupField (fields : List (Str × JValue)) (key : Str) :
    jsize (lookupField fields key) ≤ max 1 (jsizeFields fields) := by
  induction fields with
  | nil => simp [lookupField, jsize]
  | cons f rest ih =>
    obtain ⟨k, v⟩ := f
    by_cases h : k = key
    · simp only [lookupField, if_pos h, jsizeFields]
      have := jsize_pos v
      omega
    · simp only [lookupField, if_neg h, jsizeFields]
      have := ih
      omega

theorem jsize_importModuleDefault (fields : List (Str × JValue)) :
    jsize (importModuleDefault fields) ≤ max 1 (jsizeFields fields) := by
  unfold importModuleDefault
  split
  · exact jsize_lookupField fields _
  · split
    · exact jsize_lookupField fields _
    · exact jsize_lookupField fields _

theorem unwrapExportFuel_succ (f : Nat) :
    ∀ v, jsize v ≤ f → unwrapExportFuel f v = unwrapExportFuel (f + 1) v := by
  induction f with
  | zero =>
    intro v hv
    have := jsize_pos v
    omega
  | succ f ih =>
    intro v hv
    match v with
    | .undefv => simp [unwrapExportFuel_undef]
    | .nullv => rfl
    | .boolv b => rfl
    | .numv n => rfl
    | .str s => rfl
    | .arr [] => rfl
    | .arr (x :: xs) =>
      show unwrapExportFuel f x = unwrapExportFuel (f + 1) x
      apply ih
      simp only [jsize, jsizeList] at hv
      have := jsize_pos x
      omega
    | .obj [] =>
      show unwrapExportFuel f (importModuleDefault [])
        = unwrapExportFuel (f + 1) (importModuleDefault [])
      have himd : importModuleDefault [] = .undefv := rfl
      rw [himd, unwrapExportFuel_undef, unwrapExportFuel_undef]
    | .obj (g :: rest) =>
      show unwrapExportFuel f (importModuleDefault (g :: rest))
        = unwrapExportFuel (f + 1) (importModuleDefault (g :: rest))
      apply ih
      have h1 := jsize_importModuleDefault (g :: rest)
      have h2 : 1 ≤ jsizeFields (g :: rest) := by
        simp only [jsizeFields]
        omega
      simp only [jsize] at hv
      omega

theorem unwrapExportFuel_add (k f : Nat) (v : JValue) (hv : jsize v ≤ f) :
    unwrapExportFuel f v = unwrapExportFuel (f + k) v := by
  induction k with
  | zero => rfl
  | succ k ih =>
    rw [ih, unwrapExportFuel_succ (f + k) v (by omega)]
    rfl

theorem unwrapExportFuel_eq (f : Nat) (v : JValue) (hv : jsize v ≤ f) :
    unwrapExportFuel f v = unwrap_export v := by
  unfold unwrap_export
  obtain ⟨k, hk⟩ := Nat.exists_eq_add_of_le hv
  subst hk
  exact (unwrapExportFuel_add k (jsize v) v (le_refl _)).symm

theorem unwrap_export_str (s : Str) : unwrap_export (.str s) = some s := rfl

theorem unwrap_export_arr_nil : unwrap_export (.arr []) = none := rfl

theorem unwrap_export_arr (x : JValue) (xs : List JValue) :
    unwrap_export (.arr (x :: xs)) = unwrap_export x := by
  have h : jsize (.arr (x :: xs)) = (1 + jsize x + jsizeList xs) + 1 := by
    simp only [jsize, jsizeList]
    omega
  unfold unwrap_export
  rw [h]
  show unwrapExportFuel (1 + jsize x + jsizeList xs) x = _
  rw [unwrapExportFuel_eq _ x (by omega)]
  rfl

theorem unwrap_export_obj (fields : List (Str × JValue)) :
    unwrap_export (.obj fields) = unwrap_export (importModuleDefault fields) := by
  have h : jsize (.obj fields) = jsizeFields fields + 1 := by
    simp only [jsize]
    omega
  unfold unwrap_export
  rw [h]
  show unwrapExportFuel (jsizeFields fields) (importModuleDefault fields) = _
  cases fields with
  | nil =>
    have himd : importModuleDefault [] = .undefv := rfl
    rw [himd, unwrapExportFuel_undef]
    exact (unwrapExportFuel_undef _).symm
  | cons g rest =>
    have h1 := jsize_importModuleDefault (g :: rest)
    have h2 : 1 ≤ jsizeFields (g :: rest) := by
      simp only [jsizeFields]
      omega
    rw [unwrapExportFuel_eq _ _ (by omega)]
    rfl

/-- C3 counterexample: the claim as stated is false. For the conditional
    object with import mapped to the empty string and default mapped to
    "./a.js", taking the first present condition (import) would return the
    empty string unchanged, but the code's JS disjunction skips the falsy
    empty string and lands on the default branch. -/
theorem C3_first_present_vs_first_truthy :
    unwrap_export
        (.obj [(cs "import", .str []), (cs "default", .str (cs "./a.js"))])
      = some (cs "./a.js")
    ∧ unwrap_export_spec
        (.obj [(cs "import", .str []), (cs "default", .str (cs "./a.js"))])
      = some []
    ∧ unwrap_export
        (.obj [(cs "import", .str []), (cs "default", .str (cs "./a.js"))])
      ≠ unwrap_export_spec
        (.obj [(cs "import", .str []), (cs "default", .str (cs "./a.js"))]) := by
  refine ⟨by decide, by decide, by decide⟩

/-- C3 amended: unwrapping a conditional export recursively takes the first
    truthy branch among import and module (in that order), and otherwise
    falls back to the value of the default branch whether or not that value
    is truthy or present; every other condition name is ignored; an array
    unwraps to its first element (an empty array is not exported); a string
    leaf is returned unchanged; a missing value is not exported. -/
theorem C3_unwrap_export_first_truthy (s : Str) (x : JValue)
    (xs : List JValue) (fields gields : List (Str × JValue)) :
    unwrap_export (.str s) = some s
    ∧ unwrap_export (.arr (x :: xs)) = unwrap_export x
    ∧ unwrap_export (.arr []) = none
    ∧ unwrap_export .undefv = none
    ∧ unwrap_export (.obj fields) =
        (if truthy (lookupField fields (cs "import")) then
          unwrap_export (lookupField fields (cs "import"))
        else if truthy (lookupField fields (cs "module")) then
          unwrap_export (lookupField fields (cs "module"))
        else unwrap_export (lookupField fields (cs "default")))
    ∧ (lookupField fields (cs "import") = lookupField gields (cs "import") →
       lookupField fields (cs "module") = lookupField gields (cs "module") →
       lookupField fields (cs "default") = lookupField gields (cs "default") →
       unwrap_export (.obj fields) = unwrap_export (.obj gields)) := by
  have hobj : ∀ h : List (Str × JValue), unwrap_export (.obj h) =
      (if truthy (lookupField h (cs "import")) then
        unwrap_export (lookupField h (cs "import"))
      else if truthy (lookupField h (cs "module")) then
        unwrap_export (lookupField h (cs "module"))
      else unwrap_export (lookupField h (cs "default"))) := by
    intro h
    rw [unwrap_export_obj, importModuleDefault]
    split
    · rfl
    · split
      · rfl
      · rfl
  refine ⟨unwrap_export_str s, unwrap_export_arr x xs, rfl, rfl, hobj fields,
    fun h1 h2 h3 => ?_⟩
  rw [hobj fields, hobj gields, h1, h2, h3]

/-- C3 witness: the amended theorem applied to concrete conditional
    objects; an unrecognized condition (types) and reordered or extra
    fields do not change the result. -/
theorem C3_unwrap_export_first_truthy_witness :
    unwrap_export (.obj [(cs "types", .str (cs "./t.d.ts")),
        (cs "import", .str (cs "./i.js"))])
      = unwrap_export (.obj [(cs "import", .str (cs "./i.js")),
        (cs "other", .numv 1)]) :=
  (C3_unwrap_export_first_truthy [] .undefv []
    [(cs "types", .str (cs "./t.d.ts")), (cs "import", .str (cs "./i.js"))]
    [(cs "import", .str (cs "./i.js")), (cs "other", .numv 1)]).2.2.2.2.2
    (by rfl) (by rfl) (by rfl)

/-
Properties of the JS split used by glob_map.
-/

theorem jsSplitChar_ne_nil (sep : Char) (l : Str) :
    jsSplitChar sep l ≠ [] := by
  cases l with
  | nil => simp [jsSplitChar]
  | cons c rest =>
    simp only [jsSplitChar]
    rcases h : jsSplitChar sep rest with _ | ⟨hd, tl⟩
    · simp
    · by_cases hc : c = sep <;> simp [hc]

theorem jsSplitChar_no_sep (sep : Char) (l : Str) (h : sep ∉ l) :
    jsSplitChar sep l = [l] := by
  induction l with
  | nil => rfl
  | cons c rest ih =>
    have hc : c ≠ sep := fun hcs => h (hcs ▸ List.mem_cons_self c rest)
    have hrest : sep ∉ rest := fun hm => h (List.mem_cons_of_mem c hm)
    simp only [jsSplitChar, ih hrest, if_neg hc]

theorem jsSplitChar_first (sep : Char) (p s : Str) (hp : sep ∉ p) :
    jsSplitChar sep (p ++ sep :: s) = p :: jsSplitChar sep s := by
  induction p with
  | nil =>
    simp only [List.nil_append, jsSplitChar]
    rcases h : jsSplitChar sep s with _ | ⟨hd, tl⟩
    · exact absurd h (jsSplitChar_ne_nil sep s)
    · simp
  | cons c p ih =>
    have hc : c ≠ sep := fun hcs => hp (hcs ▸ List.mem_cons_self c p)
    have hp' : sep ∉ p := fun hm => hp (List.mem_cons_of_mem c hm)
    simp only [List.cons_append, jsSplitChar, List.append_eq, ih hp',
      if_neg hc]

theorem globFilling_of_decomp (p mid s : Str) :
    globFilling (p ++ mid ++ s) p s = mid := by
  by_cases h : s.length > 0
  · have hlen : (p ++ mid ++ s).length - s.length = (p ++ mid).length := by
      simp only [List.length_append]
      omega
    have htake : (p ++ mid ++ s).take ((p ++ mid ++ s).length - s.length)
        = p ++ mid := by
      rw [hlen]
      exact List.take_left (p ++ mid) s
    simp only [globFilling, if_pos h, jsSlice]
    rw [htake]
    exact List.drop_left p mid
  · have hs : s = [] := List.eq_nil_of_length_eq_zero (by omega)
    subst hs
    simp only [globFilling, if_neg h, jsSliceFrom, List.append_nil]
    exact List.drop_left p mid

instance {α β : Type} [DecidableEq α] [DecidableEq β] :
    DecidableEq (Except α β) := fun x y =>
  match x, y with
  | .ok a, .ok b =>
    if h : a = b then .isTrue (by rw [h])
    else .isFalse (fun hc => h (Except.ok.inj hc))
  | .error a, .error b =>
    if h : a = b then .isTrue (by rw [h])
    else .isFalse (fun hc => h (Except.error.inj hc))
  | .ok _, .error _ => .isFalse (fun hc => Except.noConfusion hc)
  | .error _, .ok _ => .isFalse (fun hc => Except.noConfusion hc)

theorem glob_map_matched_entry (string p s vp vs : Str)
    (rest : List (Str × JValue)) (hp : '*' ∉ p) (hs : '*' ∉ s)
    (hvp : '*' ∉ vp) (hvs : '*' ∉ vs)
    (hpre : p.isPrefixOf string = true) (hsuf : s.isSuffixOf string = true) :
    glob_map string ((p ++ '*' :: s, .str (vp ++ '*' :: vs)) :: rest)
      = .ok (some (vp ++ globFilling string p s ++ vs)) := by
  simp only [glob_map, jsSplitChar_first '*' p s hp, jsSplitChar_no_sep '*' s hs,
    jsSplitChar_first '*' vp vs hvp, jsSplitChar_no_sep '*' vs hvs,
    hpre, hsuf, Bool.and_self, if_pos]

theorem glob_map_unmatched_entry (string p s : Str) (v : JValue)
    (rest : List (Str × JValue)) (hp : '*' ∉ p) (hs : '*' ∉ s)
    (hmiss : ¬(p.isPrefixOf string = true ∧ s.isSuffixOf string = true)) :
    glob_map string ((p ++ '*' :: s, v) :: rest) = glob_map string rest := by
  have hcond : (p.isPrefixOf string && s.isSuffixOf string) = false := by
    cases h1 : p.isPrefixOf string with
    | false => simp
    | true =>
      cases h2 : s.isSuffixOf string with
      | false => simp
      | true => exact absurd ⟨h1, h2⟩ hmiss
  simp only [glob_map, jsSplitChar_first '*' p s hp, jsSplitChar_no_sep '*' s hs,
    hcond, Bool.false_eq_true, if_false]

theorem glob_map_starless_key (string k : Str) (v : JValue)
    (rest : List (Str × JValue)) (hk : '*' ∉ k) :
    glob_map string ((k, v) :: rest) = glob_map string rest := by
  simp only [glob_map, jsSplitChar_no_sep '*' k hk]

theorem glob_map_starless_value (string p s t : Str)
    (rest : List (Str × JValue)) (hp : '*' ∉ p) (hs : '*' ∉ s) (ht : '*' ∉ t) :
    glob_map string ((p ++ '*' :: s, .str t) :: rest) = glob_map string rest := by
  simp only [glob_map, jsSplitChar_first '*' p s hp, jsSplitChar_no_sep '*' s hs,
    jsSplitChar_no_sep '*' t ht]
  split <;> rfl

/-- C7: glob matching of a subpath against a key with exactly one star.
    The match succeeds exactly when the subpath starts with the key's
    prefix and ends with its suffix; the result substitutes the captured
    middle into the value's star. In particular the source test fixture
    resolves exports/wildcard/img.svg through the key pattern
    "./wildcard/" star, and fails exports/wildcard_ext/img.wrongext
    against "./wildcard_ext/" star ".js". -/
theorem C7_glob_match_iff (string p s vp vs : Str)
    (hp : '*' ∉ p) (hs : '*' ∉ s) (hvp : '*' ∉ vp) (hvs : '*' ∉ vs) :
    (∀ mid, string = p ++ mid ++ s →
      glob_map string [(p ++ '*' :: s, .str (vp ++ '*' :: vs))]
        = .ok (some (vp ++ mid ++ vs)))
    ∧ (p.isPrefixOf string = true → s.isSuffixOf string = true →
      glob_map string [(p ++ '*' :: s, .str (vp ++ '*' :: vs))]
        = .ok (some (vp ++ globFilling string p s ++ vs)))
    ∧ (¬(p.isPrefixOf string = true ∧ s.isSuffixOf string = true) →
      glob_map string [(p ++ '*' :: s, .str (vp ++ '*' :: vs))] = .ok none)
    ∧ internalize (cs "./wildcard/img.svg") testManifest
        = .ok (some (cs "./dist/wildcard/img.svg"))
    ∧ internalize (cs "./wildcard_ext/img.wrongext") testManifest
        = .ok none := by
  refine ⟨fun mid hmid => ?_, fun hpre hsuf => ?_, fun hmiss => ?_,
    by decide, by decide⟩
  · subst hmid
    have hpre : p.isPrefixOf (p ++ mid ++ s) = true := by
      rw [List.isPrefixOf_iff_prefix, List.append_assoc]
      exact List.prefix_append p (mid ++ s)
    have hsuf : s.isSuffixOf (p ++ mid ++ s) = true := by
      rw [List.isSuffixOf_iff_suffix]
      exact List.suffix_append (p ++ mid) s
    rw [glob_map_matched_entry _ p s vp vs [] hp hs hvp hvs hpre hsuf,
      globFilling_of_decomp]
  · exact glob_map_matched_entry string p s vp vs [] hp hs hvp hvs hpre hsuf
  · rw [glob_map_unmatched_entry string p s _ [] hp hs hmiss]
    rfl

/-- C7 witness: the theorem applied to the concrete key "./w/" star ".js",
    value "./d/" star ".mjs" and subpath "./w/m.js". -/
theorem C7_glob_match_iff_witness :
    glob_map (cs "./w/" ++ cs "m" ++ cs ".js")
        [(cs "./w/" ++ '*' :: cs ".js", .str (cs "./d/" ++ '*' :: cs ".mjs"))]
      = .ok (some (cs "./d/" ++ cs "m" ++ cs ".mjs")) :=
  (C7_glob_match_iff (cs "./w/" ++ cs "m" ++ cs ".js") (cs "./w/") (cs ".js")
    (cs "./d/") (cs ".mjs") (by decide) (by decide) (by decide) (by decide)).1
    (cs "m") rfl

/-- C10: glob keys are tried in the object's own enumeration order and the
    first matching key wins, with no preference for a longer or more
    specific pattern; a key without a star is skipped, and a matching key
    whose string value has no star is skipped as well, letting later
    entries match. -/
theorem C10_glob_first_match_in_order (string p s t k vp vs : Str)
    (v : JValue) (rest : List (Str × JValue))
    (hp : '*' ∉ p) (hs : '*' ∉ s) :
    (p.isPrefixOf string = true → s.isSuffixOf string = true →
      '*' ∉ vp → '*' ∉ vs →
      glob_map string ((p ++ '*' :: s, .str (vp ++ '*' :: vs)) :: rest)
        = .ok (some (vp ++ globFilling string p s ++ vs)))
    ∧ ('*' ∉ k →
      glob_map string ((k, v) :: rest) = glob_map string rest)
    ∧ (p.isPrefixOf string = true → s.isSuffixOf string = true → '*' ∉ t →
      glob_map string ((p ++ '*' :: s, .str t) :: rest)
        = glob_map string rest) :=
  ⟨fun hpre hsuf hvp hvs =>
      glob_map_matched_entry string p s vp vs rest hp hs hvp hvs hpre hsuf,
    fun hk => glob_map_starless_key string k v rest hk,
    fun hpre hsuf ht => by
      have := glob_map_starless_value string p s t rest hp hs ht
      exact this⟩

/-- C10 witness: with two overlapping glob keys that both match the
    subpath "./w/xy", the first entry wins even though the second is the
    longer, more specific pattern. -/
theorem C10_glob_first_match_in_order_witness :
    glob_map (cs "./w/xy")
        ((cs "./w/" ++ '*' :: [], .str (cs "./a/" ++ '*' :: []))
          :: [(cs "./w/x" ++ '*' :: [], .str (cs "./b/" ++ '*' :: []))])
      = .ok (some (cs "./a/xy"))
    ∧ glob_map (cs "./w/xy")
        [(cs "./w/x" ++ '*' :: [], .str (cs "./b/" ++ '*' :: []))]
      = .ok (some (cs "./b/y")) := by
  constructor
  · have h := (C10_glob_first_match_in_order (cs "./w/xy") (cs "./w/") []
      [] [] (cs "./a/") [] (.str [])
      [(cs "./w/x" ++ '*' :: [], .str (cs "./b/" ++ '*' :: []))]
      (by decide) (by decide)).1 (by decide) (by decide) (by decide) (by decide)
    rw [h]
    decide
  · decide

/-
The top-level analysis (src: repl.js analyze_top). The acorn AST is
modelled by mutually inductive statements and expressions: the node kinds
the walk distinguishes are explicit constructors, and every other node is
a generic container whose children the default acorn-walk visitor would
visit. Statements occur inside expressions only through function bodies,
as in the ESTree grammar.
-/

mutual

/-- A statement node. -/
inductive Stmt where
| exprStmt : Expr → Stmt
| funDecl : Str → List Expr → List Stmt → Stmt
| forOf : Bool → Expr → Expr → Stmt → Stmt
| forIn : Expr → Expr → Stmt → Stmt
| otherStmt : List Expr → List Stmt → Stmt

/-- An expression node. Function expressions and arrow functions carry
    their parameter expressions and body statements. -/
inductive Expr where
| awaitExpr : Expr → Expr
| funExpr : List Expr → List Stmt → Expr
| ident : Str → Expr
| otherExpr : List Expr → Expr

end

/-- The result of analyze_top: the value-producing statement nodes in walk
    order and the top-level-await flag. -/
structure TopAnalysis where
  values : List Stmt
  wait : Bool

mutual

/-- src: repl.js analyze_top, the visitor state threaded through the
    acorn-walk recursive walk. Function stops the descent entirely;
    ExpressionStatement records the node and continues into its
    expression; AwaitExpression sets wait without descending;
    ForOfStatement reads its await flag and continues into the body only.
    Every other node is visited by the default walker, which descends into
    all children. -/
def walkStmt : TopAnalysis → Stmt → TopAnalysis
| st, .exprStmt e =>
  walkExpr { st with values := st.values ++ [.exprStmt e] } e
| st, .funDecl _ _ _ => st
| st, .forOf aw _ _ body => walkStmt { st with wait := st.wait || aw } body
| st, .forIn left right body => walkStmt (walkExpr (walkExpr st left) right) body
| st, .otherStmt es ss => walkStmts (walkExprs st es) ss

/-- The walk over a statement list. -/
def walkStmts : TopAnalysis → List Stmt → TopAnalysis
| st, [] => st
| st, s :: rest => walkStmts (walkStmt st s) rest

/-- The walk over one expression (see walkStmt). -/
def walkExpr : TopAnalysis → Expr → TopAnalysis
| st, .awaitExpr _ => { st with wait := true }
| st, .funExpr _ _ => st
| st, .ident _ => st
| st, .otherExpr es => walkExprs st es

/-- The walk over an expression list. -/
def walkExprs : TopAnalysis → List Expr → TopAnalysis
| st, [] => st
| st, e :: rest => walkExprs (walkExpr st e) rest

end

/-- src: repl.js analyze_top over a module body. -/
def analyze_top (body : List Stmt) : TopAnalysis := walkStmts ⟨[], false⟩ body

mutual

/-- Modelled from the claim's words: the ExpressionStatement nodes outside
    any function body, in source order. -/
def valuesSpecStmt : Stmt → List Stmt
| .exprStmt e => .exprStmt e :: valuesSpecExpr e
| .funDecl _ _ _ => []
| .forOf _ left right body =>
  valuesSpecExpr left ++ valuesSpecExpr right ++ valuesSpecStmt body
| .forIn left right body =>
  valuesSpecExpr left ++ valuesSpecExpr right ++ valuesSpecStmt body
| .otherStmt es ss => valuesSpecExprs es ++ valuesSpecStmts ss

/-- Modelled from the claim's words, over a statement list. -/
def valuesSpecStmts : List Stmt → List Stmt
| [] => []
| s :: rest => valuesSpecStmt s ++ valuesSpecStmts rest

/-- Modelled from the claim's words, over an expression. -/
def valuesSpecExpr : Expr → List Stmt
| .awaitExpr arg => valuesSpecExpr arg
| .funExpr _ _ => []
| .ident _ => []
| .otherExpr es => valuesSpecExprs es

/-- Modelled from the claim's words, over an expression list. -/
def valuesSpecExprs : List Expr → List Stmt
| [] => []
| e :: rest => valuesSpecExpr e ++ valuesSpecExprs rest

end

mutual

/-- Modelled from the claim's words: whether a statement contains an
    AwaitExpression or a for-await-of outside any function body, with no
    further restriction. -/
def waitSpecStmt : Stmt → Bool
| .exprStmt e => waitSpecExpr e
| .funDecl _ _ _ => false
| .forOf aw left right body =>
  aw || waitSpecExpr left || waitSpecExpr right || waitSpecStmt body
| .forIn left right body =>
  waitSpecExpr left || waitSpecExpr right || waitSpecStmt body
| .otherStmt es ss => waitSpecExprs es || waitSpecStmts ss

/-- Modelled from the claim's words, over a statement list. -/
def waitSpecStmts : List Stmt → Bool
| [] => false
| s :: rest => waitSpecStmt s || waitSpecStmts rest

/-- Modelled from the claim's words, over an expression. -/
def waitSpecExpr : Expr → Bool
| .awaitExpr _ => true
| .funExpr _ _ => false
| .ident _ => false
| .otherExpr es => waitSpecExprs es

/-- Modelled from the claim's words, over an expression list. -/
def waitSpecExprs : List Expr → Bool
| [] => false
| e :: rest => waitSpecExpr e || waitSpecExprs rest

end

mutual

/-- The wait flag the code actually computes, characterized declaratively:
    like the claim's predicate, except that the left and right parts of a
    for-of head are skipped (the ForOfStatement visitor only continues
    into the body). -/
def waitCodeStmt : Stmt → Bool
| .exprStmt e => waitCodeExpr e
| .funDecl _ _ _ => false
| .forOf aw _ _ body => aw || waitCodeStmt body
| .forIn left right body =>
  waitCodeExpr left || waitCodeExpr right || waitCodeStmt body
| .otherStmt es ss => waitCodeExprs es || waitCodeStmts ss

/-- Declarative wait over a statement list. -/
def waitCodeStmts : List Stmt → Bool
| [] => false
| s :: rest => waitCodeStmt s || waitCodeStmts rest

/-- Declarative wait over an expression. -/
def waitCodeExpr : Expr → Bool
| .awaitExpr _ => true
| .funExpr _ _ => false
| .ident _ => false
| .otherExpr es => waitCodeExprs es

/-- Declarative wait over an expression list. -/
def waitCodeExprs : List Expr → Bool
| [] => false
| e :: rest => waitCodeExpr e || waitCodeExprs rest

end

mutual

theorem valuesSpecExpr_eq_nil : ∀ e, valuesSpecExpr e = []
| .awaitExpr arg => by
  simp only [valuesSpecExpr, valuesSpecExpr_eq_nil arg]
| .funExpr _ _ => rfl
| .ident _ => rfl
| .otherExpr es => by
  simp only [valuesSpecExpr, valuesSpecExprs_eq_nil es]

theorem valuesSpecExprs_eq_nil : ∀ es, valuesSpecExprs es = []
| [] => rfl
| e :: rest => by
  simp only [valuesSpecExprs, valuesSpecExpr_eq_nil e,
    valuesSpecExprs_eq_nil rest, List.append_nil]

end

mutual

theorem walkStmt_spec : ∀ st s, walkStmt st s =
    ⟨st.values ++ valuesSpecStmt s, st.wait || waitCodeStmt s⟩
| st, .exprStmt e => by
  simp only [walkStmt, walkExpr_spec, valuesSpecStmt, waitCodeStmt,
    valuesSpecExpr_eq_nil e, List.append_nil]
| st, .funDecl n ps b => by
  simp [walkStmt, valuesSpecStmt, waitCodeStmt]
| st, .forOf aw left right body => by
  simp only [walkStmt, walkStmt_spec _ body, valuesSpecStmt, waitCodeStmt,
    valuesSpecExpr_eq_nil left, valuesSpecExpr_eq_nil right,
    List.nil_append, Bool.or_assoc]
| st, .forIn left right body => by
  simp only [walkStmt, walkExpr_spec, walkStmt_spec _ body, valuesSpecStmt,
    waitCodeStmt, valuesSpecExpr_eq_nil left, valuesSpecExpr_eq_nil right,
    List.nil_append, Bool.or_assoc]
| st, .otherStmt es ss => by
  simp only [walkStmt, walkExprs_spec, walkStmts_spec, valuesSpecStmt,
    waitCodeStmt, valuesSpecExprs_eq_nil es, List.nil_append, Bool.or_assoc]

theorem walkStmts_spec : ∀ st l, walkStmts st l =
    ⟨st.values ++ valuesSpecStmts l, st.wait || waitCodeStmts l⟩
| st, [] => by
  simp [walkStmts, valuesSpecStmts, waitCodeStmts]
| st, s :: rest => by
  simp only [walkStmts, walkStmt_spec, walkStmts_spec _ rest,
    valuesSpecStmts, waitCodeStmts, List.append_assoc, Bool.or_assoc]

theorem walkExpr_spec : ∀ st e, walkExpr st e =
    ⟨st.values, st.wait || waitCodeExpr e⟩
| st, .awaitExpr arg => by
  simp [walkExpr, waitCodeExpr]
| st, .funExpr ps b => by
  simp [walkExpr, waitCodeExpr]
| st, .ident n => by
  simp [walkExpr, waitCodeExpr]
| st, .otherExpr es => by
  simp only [walkExpr, walkExprs_spec, waitCodeExpr]

theorem walkExprs_spec : ∀ st l, walkExprs st l =
    ⟨st.values, st.wait || waitCodeExprs l⟩
| st, [] => by
  simp [walkExprs, waitCodeExprs]
| st, e :: rest => by
  simp only [walkExprs, walkExpr_spec, walkExprs_spec _ rest,
    waitCodeExprs, Bool.or_assoc]

end

/-- C6 counterexample: a module whose only statement is
    for (x of await p) do nothing. It contains a top-level AwaitExpression
    outside any function body, so the claim requires wait to be true, but
    the walk never visits the iterated expression of a for-of head and the
    code leaves wait false. -/
theorem C6_forOf_head_await_missed :
    (analyze_top [.forOf false (.ident (cs "x"))
        (.awaitExpr (.ident (cs "p"))) (.otherStmt [] [])]).wait = false
    ∧ waitSpecStmts [.forOf false (.ident (cs "x"))
        (.awaitExpr (.ident (cs "p"))) (.otherStmt [] [])] = true := by
  constructor
  · rfl
  · rfl

/-- C6 amended: analyze_top collects exactly the ExpressionStatement nodes
    outside any function body, in source order, as its value-producing
    statements; and its wait flag is true iff the module contains a
    top-level for-await-of, or a top-level AwaitExpression outside any
    function body and outside the head (left or right part) of a for-of
    statement, whose iterated expression the walk does not visit. -/
theorem C6_analyze_top_characterization (body : List Stmt) :
    analyze_top body = ⟨valuesSpecStmts body, waitCodeStmts body⟩ := by
  unfold analyze_top
  rw [walkStmts_spec]
  simp

/-
CMDL supervision (src: cmdl.js make_cmdl / start_padawan). The closure
state is the table of pending report callbacks (modelled by their ids, in
registration order), whether the socket has been established, whether the
child was deliberately killed, and the TCP server in use. The observable
output of an event is the list of (id, report) settlements it performs and
whether it spawns a new padawan.
-/

/-- A report delivered to a pending callback. -/
structure Report where
  evaluation : Option Str
  exception : Option Str
deriving DecidableEq

/-- The synthetic report produced when the child process exits. -/
def cmdlDied : Report := ⟨none, some (cs "CMDL died.")⟩

/-- The mutable state closed over by make_cmdl. -/
structure CmdlState where
  report_callbacks : List Str
  socket : Bool
  killed : Bool
  server_port : Nat

/-- The external events the CMDL reacts to. -/
inductive CmdlEvent where
| connect : CmdlEvent
| evalReq : Str → CmdlEvent
| kill : CmdlEvent
| exit : CmdlEvent

/-- One event transition. connect stores the socket; eval_module registers
    a callback under a fresh id and writes the command; destroy kills the
    child; the exit handler settles every pending callback with the
    synthetic report, clears the table, restarts the padawan if the
    process was not killed and a socket had been established, and forgets
    the socket. The TCP server is never replaced. The step returns the new
    state, the settlements performed, and whether a new padawan is
    spawned. -/
def cmdlStep : CmdlState → CmdlEvent → CmdlState × List (Str × Report) × Bool
| st, .connect => ({ st with socket := true }, [], false)
| st, .evalReq id =>
  ({ st with report_callbacks := st.report_callbacks ++ [id] }, [], false)
| st, .kill => ({ st with killed := true }, [], false)
| st, .exit =>
  (⟨[], false, st.killed, st.server_port⟩,
   st.report_callbacks.map (fun id => (id, cmdlDied)),
   !st.killed && st.socket)

/-- C8 counterexample: the claim as stated is false. In a state where the
    padawan process exited before its TCP connection was ever accepted
    (socket still undefined), shutdown was not requested (killed is
    false), yet no new padawan is spawned, because the restart guard also
    requires an established socket. -/
theorem C8_no_respawn_without_socket :
    (cmdlStep ⟨[cs "id1"], false, false, 9000⟩ .exit).2.2 = false
    ∧ (⟨[cs "id1"], false, false, 9000⟩ : CmdlState).killed = false :=
  ⟨rfl, rfl⟩

/-- C8 amended: whenever the padawan process exits, every pending
    evaluation's callback is settled with the report with exception
    "CMDL died." (all of them, in table order), the callback table is
    emptied, the same TCP server is kept, and a new padawan is spawned
    exactly when the process was not deliberately killed and the TCP
    connection had been established (a child that dies before ever
    connecting is not respawned). -/
theorem C8_exit_settles_and_respawns (st : CmdlState) :
    (cmdlStep st .exit).2.1.map Prod.fst = st.report_callbacks
    ∧ (∀ p ∈ (cmdlStep st .exit).2.1, p.2 = cmdlDied)
    ∧ (∀ p ∈ (cmdlStep st .exit).2.1, p.2.exception = some (cs "CMDL died."))
    ∧ (cmdlStep st .exit).1.report_callbacks = []
    ∧ (cmdlStep st .exit).1.server_port = st.server_port
    ∧ (cmdlStep st .exit).1.socket = false
    ∧ ((cmdlStep st .exit).2.2 = true ↔ st.killed = false ∧ st.socket = true) := by
  refine ⟨?_, ?_, ?_, rfl, rfl, rfl, ?_⟩
  · show List.map Prod.fst (st.report_callbacks.map (fun id => (id, cmdlDied)))
        = st.report_callbacks
    rw [List.map_map]
    exact List.map_id st.report_callbacks
  · intro p hp
    simp only [cmdlStep, List.mem_map] at hp
    obtain ⟨id, _, rfl⟩ := hp
    rfl
  · intro p hp
    simp only [cmdlStep, List.mem_map] at hp
    obtain ⟨id, _, rfl⟩ := hp
    rfl
  · simp [cmdlStep, Bool.and_eq_true, Bool.not_eq_true']

/-- C8 witness: the amended theorem applied to a state with two pending
    evaluations, a live socket and no kill request; the exit settles both
    with the synthetic report and a new padawan is spawned. -/
theorem C8_exit_settles_and_respawns_witness :
    (cmdlStep ⟨[cs "a", cs "b"], true, false, 7070⟩ .exit).2.1.map Prod.fst
      = [cs "a", cs "b"]
    ∧ (∀ p ∈ (cmdlStep ⟨[cs "a", cs "b"], true, false, 7070⟩ .exit).2.1,
        p.2 = cmdlDied)
    ∧ (cmdlStep ⟨[cs "a", cs "b"], true, false, 7070⟩ .exit).2.2 = true := by
  have h := C8_exit_settles_and_respawns ⟨[cs "a", cs "b"], true, false, 7070⟩
  exact ⟨h.1, h.2.1, h.2.2.2.2.2.2.mpr ⟨rfl, rfl⟩⟩

/-
The version registry (src: repl.js versionize). The hashes object maps a
locator to its last known hash; the versions object maps it to an integer
incremented each time the hash changes. Object assignment is modelled by
prepending to an association list read through List.lookup (the first
binding wins, like the latest assignment).
-/

/-- The hashes and versions objects closed over by make_repl. -/
structure VersionState where
  hashes : List (Str × Str)
  versions : List (Str × Nat)

/-- Both objects start out empty (Object.create(null)). -/
def initialVersionState : VersionState := ⟨[], []⟩

/-- Decimal rendering of a version number (fuel-indexed; the fuel n + 1
    always covers the digits of n). -/
def toDecAux : Nat → Nat → Str
| _, 0 => []
| n, fuel + 1 =>
  if n < 10 then [Char.ofNat (48 + n)]
  else toDecAux (n / 10) fuel ++ [Char.ofNat (48 + n % 10)]

/-- Decimal rendering of a natural number, as JS string conversion does. -/
def toDec (n : Nat) : Str := toDecAux n (n + 1)

/-- locator.replace("^file://", prefix + "/v" + version + "/" +
    unguessable): the versioned locator. -/
def versionedLocator (locator : Str) (v : Nat) (unguessable : Str) : Str :=
  if (cs "file://").isPrefixOf locator then
    cs "file://" ++ cs "/v" ++ toDec v ++ cs "/" ++ unguessable
      ++ locator.drop 7
  else locator

/-- src: repl.js versionize, as a state transition. The mime capability is
    a parameter; the hash computed for the locator is passed in (its
    computation is the subject of C5). A non-file or non-JS locator, or an
    undefined hash, leaves the state untouched and the locator unchanged.
    Otherwise the version starts at zero on the first successful query and
    is incremented exactly when the stored hash differs; the new hash is
    stored and the versioned locator returned. -/
def versionize_step (mime : Str → Option Str) (unguessable : Str)
    (st : VersionState) (locator : Str) (theHash : Option Str) :
    VersionState × Str :=
  if !((cs "file:///").isPrefixOf locator
      && mime locator == some (cs "text/javascript")) then
    (st, locator)
  else
    match theHash with
    | none => (st, locator)
    | some h =>
      let v : Nat :=
        match List.lookup locator st.versions with
        | none => 0
        | some v0 =>
          if List.lookup locator st.hashes != some h then v0 + 1 else v0
      (⟨(locator, h) :: st.hashes, (locator, v) :: st.versions⟩,
       versionedLocator locator v unguessable)

/-- A sequence of versionize queries, each an observed (locator, hash)
    pair. -/
def versionize_run (mime : Str → Option Str) (unguessable : Str)
    (st : VersionState) : List (Str × Option Str) → VersionState
| [] => st
| (locator, theHash) :: rest =>
  versionize_run mime unguessable
    (versionize_step mime unguessable st locator theHash).1 rest

/-- Ordering on stored versions: an absent version may become anything,
    a present version may only grow. -/
def versionLe : Option Nat → Option Nat → Prop
| none, _ => True
| some _, none => False
| some a, some b => a ≤ b

theorem versionLe_refl (a : Option Nat) : versionLe a a := by
  cases a <;> simp [versionLe]

theorem versionLe_trans {a b c : Option Nat} (h1 : versionLe a b)
    (h2 : versionLe b c) : versionLe a c := by
  cases a <;> cases b <;> cases c <;> simp_all [versionLe] <;> omega

theorem versionize_step_mono (mime : Str → Option Str) (unguessable : Str)
    (st : VersionState) (locator other : Str) (theHash : Option Str) :
    versionLe (List.lookup other st.versions)
      (List.lookup other
        (versionize_step mime unguessable st locator theHash).1.versions) := by
  unfold versionize_step
  split
  · exact versionLe_refl _
  · match theHash with
    | none => exact versionLe_refl _
    | some h =>
      simp only [List.lookup]
      by_cases he : (other == locator) = true
      · have heq : other = locator := by
          simpa using he
        subst heq
        simp only [he]
        rcases hv : List.lookup other st.versions with _ | v0
        · simp [versionLe]
        · simp only [hv, versionLe]
          split <;> omega
      · simp only [Bool.not_eq_true] at he
        simp only [he]
        exact versionLe_refl _

theorem versionize_run_mono (mime : Str → Option Str) (unguessable : Str)
    (st : VersionState) (events : List (Str × Option Str)) (other : Str) :
    versionLe (List.lookup other st.versions)
      (List.lookup other
        (versionize_run mime unguessable st events).versions) := by
  induction events generalizing st with
  | nil => exact versionLe_refl _
  | cons ev rest ih =>
    exact versionLe_trans
      (versionize_step_mono mime unguessable st ev.1 other ev.2)
      (ih _)

/-- C1: versions are monotonic. The first successful query stores version
    zero; a query whose hash differs from the stored one stores exactly
    the previous version plus one; a query with an unchanged hash keeps
    the version; in every case the versioned locator embeds the stored
    version; and across any sequence of queries the stored version of any
    locator never decreases. -/
theorem C1_versionize_monotonic (mime : Str → Option Str)
    (unguessable : Str) (st : VersionState) (locator : Str) (h : Str)
    (hjs : ((cs "file:///").isPrefixOf locator
      && mime locator == some (cs "text/javascript")) = true) :
    (List.lookup locator st.versions = none →
      List.lookup locator
          (versionize_step mime unguessable st locator (some h)).1.versions
        = some 0
      ∧ (versionize_step mime unguessable st locator (some h)).2
        = versionedLocator locator 0 unguessable)
    ∧ (∀ v0 h0, List.lookup locator st.versions = some v0 →
      List.lookup locator st.hashes = some h0 → h0 ≠ h →
      List.lookup locator
          (versionize_step mime unguessable st locator (some h)).1.versions
        = some (v0 + 1)
      ∧ (versionize_step mime unguessable st locator (some h)).2
        = versionedLocator locator (v0 + 1) unguessable)
    ∧ (∀ v0, List.lookup locator st.versions = some v0 →
      List.lookup locator st.hashes = some h →
      List.lookup locator
          (versionize_step mime unguessable st locator (some h)).1.versions
        = some v0
      ∧ (versionize_step mime unguessable st locator (some h)).2
        = versionedLocator locator v0 unguessable)
    ∧ (List.lookup locator
        (versionize_step mime unguessable st locator (some h)).1.hashes
      = some h)
    ∧ (∀ events, versionLe (List.lookup locator st.versions)
        (List.lookup locator
          (versionize_run mime unguessable st events).versions)) := by
  have hstep : versionize_step mime unguessable st locator (some h) =
      (⟨(locator, h) :: st.hashes,
        (locator, (match List.lookup locator st.versions with
          | none => 0
          | some v0 =>
            if List.lookup locator st.hashes != some h then v0 + 1
            else v0)) :: st.versions⟩,
       versionedLocator locator (match List.lookup locator st.versions with
          | none => 0
          | some v0 =>
            if List.lookup locator st.hashes != some h then v0 + 1
            else v0) unguessable) := by
    unfold versionize_step
    rw [if_neg (by simp [hjs])]
  refine ⟨fun hnone => ?_, fun v0 h0 hv hh hne => ?_, fun v0 hv hh => ?_,
    ?_, fun events => versionize_run_mono mime unguessable st events locator⟩
  · rw [hstep]
    simp [hnone, List.lookup]
  · have hbne : (List.lookup locator st.hashes != some h) = true := by
      rw [hh]
      simpa [bne_iff_ne] using hne
    rw [hstep]
    simp [hv, hbne, List.lookup]
  · have hbeq : (List.lookup locator st.hashes != some h) = false := by
      rw [hh]
      simp
    rw [hstep]
    simp [hv, hbeq, List.lookup]
  · rw [hstep]
    simp [List.lookup]

/-- C1 witness: three successive queries for one locator starting from the
    empty registry, with hashes h1, h1, h2: versions 0, 0, 1. -/
theorem C1_versionize_monotonic_witness :
    List.lookup (cs "file:///a.js")
        (versionize_step (fun _ => some (cs "text/javascript")) (cs "ab12")
          initialVersionState (cs "file:///a.js")
          (some (cs "h1"))).1.versions
      = some 0 := by
  have h := (C1_versionize_monotonic
    (fun _ => some (cs "text/javascript")) (cs "ab12") initialVersionState
    (cs "file:///a.js") (cs "h1") (by decide)).1 (by decide)
  exact h.1

/-
The module analysis as consumed by hashing and rewriting (src: repl.js
analyze_module output), and the recursive dependency hash (src: repl.js
hash). The parse is external; an analysis record carries the node ranges
and literal values that the code reads.
-/

/-- A string literal node: its range and string value. -/
structure SourceLiteral where
  start : Nat
  stop : Nat
  value : Str
deriving DecidableEq

/-- One record of module_analysis.imports: the statement's range and its
    source literal. The binding names only feed the identifiers object of
    the harness, outside the claims, and are omitted. -/
structure ImportRecord where
  node_start : Nat
  node_stop : Nat
  source : SourceLiteral
deriving DecidableEq

/-- One node of module_analysis.exports. ExportDefaultDeclaration carries
    the start of its declaration; ExportNamedDeclaration has an optional
    source literal; ExportAllDeclaration always has one. -/
inductive ExportNode where
| defaultE : Nat → Nat → Nat → ExportNode
| namedE : Nat → Nat → Option SourceLiteral → ExportNode
| allE : Nat → Nat → SourceLiteral → ExportNode
deriving DecidableEq

/-- One record of module_analysis.dynamics: the specifier value and the
    module-context and script-context replacement ranges. -/
structure DynamicRecord where
  value : Str
  module_start : Nat
  module_stop : Nat
  script_start : Nat
  script_stop : Nat
deriving DecidableEq

/-- One node of module_analysis.mains: an import.meta.main range. -/
structure MainRecord where
  start : Nat
  stop : Nat
deriving DecidableEq

/-- The analysis object returned by analyze_module. -/
structure ModuleAnalysis where
  imports : List ImportRecord
  exports : List ExportNode
  dynamics : List DynamicRecord
  mains : List MainRecord
deriving DecidableEq

/-- The analysis with nothing in it. -/
def emptyAnalysis : ModuleAnalysis := ⟨[], [], [], []⟩

/-- the_export.source, as the filter in all_specifiers reads it. -/
def exportSourceLit : ExportNode → Option SourceLiteral
| .defaultE _ _ _ => none
| .namedE _ _ s => s
| .allE _ _ s => some s

/-- src: repl.js all_specifiers: the import source values, then the
    dynamic values, then the sources of re-exports. -/
def all_specifiers (m : ModuleAnalysis) : List Str :=
  m.imports.map (fun i => i.source.value)
    ++ m.dynamics.map (fun d => d.value)
    ++ m.exports.filterMap (fun e => (exportSourceLit e).map (fun s => s.value))

/-- The capabilities and caches the hash traversal reads: the memoized
    source read, the mime capability, the memoized locate, and the
    memoized analysis (the external parser applied to the read source). -/
structure ReplCaps where
  read : Str → Str
  mime : Str → Option Str
  locate : Str → Str → Str
  analysis : Str → ModuleAnalysis

/-- The guard shared by hash and versionize: a locator names a JS module
    on disk. -/
def isJsModule (caps : ReplCaps) (locator : Str) : Bool :=
  (cs "file:///").isPrefixOf locator
    && caps.mime locator == some (cs "text/javascript")

/-- src: repl.js hash_source: the digest of the module's source text. -/
def hash_source (caps : ReplCaps) (locator : Str) : Str :=
  digest [some (caps.read locator)]

/-- src: repl.js hash, with fuel standing in for the recursion depth (the
    theorems show any fuel above the dependency depth gives the same
    result, so the fuel is an artifact, not a behavior). A locator that is
    not a file-backed JS module hashes to undefined; otherwise the digest
    covers the source hash followed by the hashes of every located
    specifier of all_specifiers, in that order, undefined entries
    rendering as empty strings inside digest. -/
def hash (caps : ReplCaps) : Nat → Str → Option Str
| 0, _ => none
| fuel + 1, locator =>
  if !(isJsModule caps locator) then none
  else some (digest (some (hash_source caps locator)
    :: (all_specifiers (caps.analysis locator)).map
        (fun specifier => hash caps fuel (caps.locate specifier locator))))

/-- The dependency graph below a locator is exhausted within a given
    depth: either the locator is not a JS module, or all its located
    specifiers are exhausted one level lower. -/
inductive HashDepth (caps : ReplCaps) : Str → Nat → Prop
| nonjs (locator : Str) (n : Nat) :
    isJsModule caps locator = false → HashDepth caps locator n
| js (locator : Str) (n : Nat) :
    isJsModule caps locator = true →
    (∀ spec ∈ all_specifiers (caps.analysis locator),
      HashDepth caps (caps.locate spec locator) n) →
    HashDepth caps locator (n + 1)

theorem hash_nonjs (caps : ReplCaps) (locator : Str)
    (h : isJsModule caps locator = false) (fuel : Nat) :
    hash caps fuel locator = none := by
  cases fuel with
  | zero => rfl
  | succ fuel => simp [hash, h]

theorem hash_depth_eq (caps : ReplCaps) (locator : Str) (n : Nat)
    (hd : HashDepth caps locator n) :
    ∀ f g, n ≤ f → n ≤ g → hash caps f locator = hash caps g locator := by
  induction hd with
  | nonjs locator n hjs =>
    intro f g _ _
    rw [hash_nonjs caps locator hjs, hash_nonjs caps locator hjs]
  | js locator n hjs hdeps ih =>
    intro f g hf hg
    obtain ⟨f', rfl⟩ : ∃ f', f = f' + 1 := ⟨f - 1, by omega⟩
    obtain ⟨g', rfl⟩ : ∃ g', g = g' + 1 := ⟨g - 1, by omega⟩
    have hmap : (all_specifiers (caps.analysis locator)).map
        (fun specifier => hash caps f' (caps.locate specifier locator))
      = (all_specifiers (caps.analysis locator)).map
        (fun specifier => hash caps g' (caps.locate specifier locator)) := by
      apply List.map_congr_left
      intro spec hspec
      exact ih spec hspec f' g' (by omega) (by omega)
    simp only [hash, hjs, Bool.not_true, Bool.false_eq_true, if_false, hmap]

/-- C5 amended: for a file-backed JS module locator whose dependency
    graph is exhausted within the fuel, hash(L) is exactly
    digest(source_hash(L), hash(d1), ..., hash(dn)) where d1..dn are the
    locate-resolutions (with parent L) of all_specifiers of L: first all
    static import specifiers in source order, then all dynamic specifiers,
    then all re-export sources; the three groups are concatenated, not
    interleaved by source position. -/
theorem C5_hash_unfolds_grouped (caps : ReplCaps) (locator : Str) (n : Nat)
    (hd : HashDepth caps locator n)
    (hjs : isJsModule caps locator = true)
    (fuel : Nat) (hfuel : n < fuel) :
    hash caps fuel locator = some (digest (some (hash_source caps locator)
      :: (all_specifiers (caps.analysis locator)).map
          (fun specifier =>
            hash caps fuel (caps.locate specifier locator)))) := by
  cases hd with
  | nonjs _ _ hno => rw [hno] at hjs; cases hjs
  | js _ m hjs2 hdeps =>
    obtain ⟨f', rfl⟩ : ∃ f', fuel = f' + 1 := ⟨fuel - 1, by omega⟩
    have hmap : (all_specifiers (caps.analysis locator)).map
        (fun specifier => hash caps f' (caps.locate specifier locator))
      = (all_specifiers (caps.analysis locator)).map
        (fun specifier => hash caps (f' + 1) (caps.locate specifier locator)) := by
      apply List.map_congr_left
      intro spec hspec
      exact hash_depth_eq caps _ m (hdeps spec hspec) f' (f' + 1)
        (by omega) (by omega)
    simp only [hash, hjs, Bool.not_true, Bool.false_eq_true, if_false, hmap]

/-- The concrete fixture used to compare the code's grouped dependency
    order with the claim's source order: m.js has a dynamic site at
    offset 5 (specifier "./d.js", resolving to a non-JS locator whose
    hash is undefined) followed by a static import at offset 20
    (specifier "./s.js", a JS module with no specifiers of its own). -/
def orderCaps : ReplCaps :=
  ⟨fun locator =>
      if locator == cs "file:///m.js" then cs "M"
      else if locator == cs "file:///s.js" then cs "S"
      else [],
    fun locator =>
      if locator == cs "file:///m.js" || locator == cs "file:///s.js" then
        some (cs "text/javascript")
      else none,
    fun spec _ =>
      if spec == cs "./s.js" then cs "file:///s.js"
      else if spec == cs "./d.js" then cs "file:///d.js"
      else cs "x:unresolved",
    fun locator =>
      if locator == cs "file:///m.js" then
        ⟨[⟨20, 38, ⟨27, 35, cs "./s.js"⟩⟩],
          [],
          [⟨cs "./d.js", 5, 13, 5, 13⟩],
          []⟩
      else emptyAnalysis⟩

/-- Modelled from the spec: the specifiers of an analysis taken in source
    order, every static import, dynamic and re-export site ordered
    together by its position in the source, rather than grouped by kind. -/
def specifiersBySourcePosition (m : ModuleAnalysis) : List Str :=
  (List.insertionSort (fun a b : Nat × Str => a.1 ≤ b.1)
    (m.imports.map (fun i => (i.source.start, i.source.value))
      ++ m.dynamics.map (fun d => (d.module_start, d.value))
      ++ m.exports.filterMap (fun e =>
          (exportSourceLit e).map (fun s => (s.start, s.value))))).map Prod.snd

/-- Modelled from the spec: the hash as the claim words it, with the
    dependency hashes taken in source order. -/
def hashSourceOrdered (caps : ReplCaps) : Nat → Str → Option Str
| 0, _ => none
| fuel + 1, locator =>
  if !(isJsModule caps locator) then none
  else some (digest (some (hash_source caps locator)
    :: (specifiersBySourcePosition (caps.analysis locator)).map
        (fun specifier =>
          hashSourceOrdered caps fuel (caps.locate specifier locator))))

/-- C5 counterexample: on the fixture whose dynamic site precedes its
    static import in the source, the code's hash (imports first, then
    dynamics, then re-exports) differs from the hash the claim describes
    (all specifiers in source order): the two dependency hashes are fed to
    digest in opposite orders. -/
theorem C5_grouped_differs_from_source_order :
    (hash orderCaps 3 (cs "file:///m.js")).isSome = true
    ∧ hash orderCaps 3 (cs "file:///m.js")
      ≠ hashSourceOrdered orderCaps 3 (cs "file:///m.js") := by
  constructor
  · decide
  · decide

/-- C5 witness: the amended theorem applied to the dependency-free module
    s.js of the fixture at depth 1 with fuel 2. -/
theorem C5_hash_unfolds_grouped_witness :
    hash orderCaps 2 (cs "file:///s.js")
      = some (digest (some (hash_source orderCaps (cs "file:///s.js"))
        :: (all_specifiers (orderCaps.analysis (cs "file:///s.js"))).map
            (fun specifier =>
              hash orderCaps 2
                (orderCaps.locate specifier (cs "file:///s.js"))))) := by
  have hd : HashDepth orderCaps (cs "file:///s.js") 1 := by
    apply HashDepth.js _ 0 (by decide)
    intro spec hspec
    rw [show all_specifiers (orderCaps.analysis (cs "file:///s.js")) = []
      from rfl] at hspec
    exact absurd hspec (List.not_mem_nil spec)
  exact C5_hash_unfolds_grouped orderCaps (cs "file:///s.js") 1 hd
    (by decide) 2 (by omega)

/-
REPL-ization (src: repl.js alter_string, blanks, replize). The alterations
are (range, replacement) pairs; alter_string sorts them by start then end
(JS Array sort is stable; insertionSort is stable for ties) and stitches
the chunks together. The payload is the altered source that the harness
embeds; the harness template itself only adds fixed text around it.
-/

/-- A source range with start and end offsets. -/
structure Range where
  start : Nat
  stop : Nat
deriving DecidableEq

/-- src: repl.js blanks: as many newlines as the replaced span contains
    (the split on newline has one more part than there are newlines). -/
def blanks (source : Str) (range : Range) : Str :=
  List.replicate
    ((jsSplitChar '\n' (jsSlice source range.start range.stop)).length - 1)
    '\n'

/-- The comparator of alter_string: by range start, then range end. -/
def altLe (a b : Range × Str) : Prop :=
  a.1.start < b.1.start ∨ (a.1.start = b.1.start ∧ a.1.stop ≤ b.1.stop)

instance : DecidableRel altLe := fun a b => by
  unfold altLe
  infer_instance

instance : IsTotal (Range × Str) altLe :=
  ⟨fun a b => by unfold altLe; omega⟩

instance : IsTrans (Range × Str) altLe :=
  ⟨fun a b c hab hbc => by unfold altLe at hab hbc ⊢; omega⟩

/-- The stitching fold of alter_string: for each alteration, the source up
    to its start, then the replacement; finally the source after the last
    range. -/
def applyAlts (string : Str) : Nat → List (Range × Str) → Str
| endPos, [] => jsSliceFrom string endPos
| endPos, (range, replacement) :: rest =>
  jsSlice string endPos range.start ++ replacement
    ++ applyAlts string range.stop rest

/-- src: repl.js alter_string. -/
def alter_string (string : Str) (alterations : List (Range × Str)) : Str :=
  applyAlts string 0 (List.insertionSort altLe alterations)

/-- A binding pattern as the VariableDeclaration handler reads it. Element
    elisions and rest elements are not modelled. -/
inductive Pattern where
| identP : Str → Nat → Nat → Pattern
| objP : Nat → Nat → List Str → Pattern
| arrP : Nat → Nat → List Str → Pattern
deriving DecidableEq

/-- The end offset of a pattern (id.end). -/
def patStop : Pattern → Nat
| .identP _ _ stop => stop
| .objP _ stop _ => stop
| .arrP _ stop _ => stop

/-- The name of a pattern (id.name; undefined on destructuring patterns,
    which never reach the uninitialized branch in parseable sources). -/
def patName : Pattern → Str
| .identP name _ _ => name
| .objP _ _ _ => []
| .arrP _ _ _ => []

/-- One declarator of a var, let or const statement. -/
structure Declarator where
  start : Nat
  id : Pattern
  init : Option Range
deriving DecidableEq

/-- A VariableDeclaration node as the handler reads it. -/
structure VarDeclNode where
  start : Nat
  declarations : List Declarator
deriving DecidableEq

/-- A FunctionDeclaration node as the handler reads it. -/
structure FunDeclNode where
  start : Nat
  id_name : Str
  id_start : Nat
  id_stop : Nat
deriving DecidableEq

/-- A ClassDeclaration node as the handler reads it. -/
structure ClassDeclNode where
  start : Nat
  stop : Nat
  id_name : Str
deriving DecidableEq

/-- The declaration attached to an export statement. A declaration kind
    with no handler is dispatched to nothing. -/
inductive DeclNode where
| varD : VarDeclNode → DeclNode
| funD : FunDeclNode → DeclNode
| classD : ClassDeclNode → DeclNode
| otherD : Nat → DeclNode
deriving DecidableEq

/-- node.declaration.start. -/
def declStart : DeclNode → Nat
| .varD v => v.start
| .funD f => f.start
| .classD c => c.start
| .otherD start => start

/-- A top-level statement of tree.body, as the handler table distinguishes
    them: statements with no handler are otherS. An
    ExportNamedDeclaration carries its optional declaration; a bare
    export list has none. -/
inductive TopStmt where
| varS : VarDeclNode → TopStmt
| funS : FunDeclNode → TopStmt
| classS : ClassDeclNode → TopStmt
| exportNamedS : Nat → Option DeclNode → TopStmt
| otherS : TopStmt
deriving DecidableEq

/-- The top analysis as replize reads it: the ranges of the value-producing
    statements and the wait flag. -/
structure TopInfo where
  values : List Range
  wait : Bool
deriving DecidableEq

/-- One declarator of the VariableDeclaration handler: initialized
    identifiers and array patterns only remember names, initialized object
    patterns additionally parenthesize the assignment, and uninitialized
    declarators are reinitialized to undefined. -/
def varDeclStep (acc : List (Range × Str) × List Str) (d : Declarator) :
    List (Range × Str) × List Str :=
  match d.init with
  | some initRange =>
    match d.id with
    | .identP name _ _ => (acc.1, acc.2 ++ [name])
    | .objP pstart _ props =>
      (acc.1 ++ [(⟨pstart, pstart⟩, cs "("),
        (⟨initRange.stop, initRange.stop⟩, cs ")")],
       acc.2 ++ props)
    | .arrP _ _ elems => (acc.1, acc.2 ++ elems)
  | none =>
    (acc.1 ++ [(⟨patStop d.id, patStop d.id⟩, cs " = undefined")],
     acc.2 ++ [patName d.id])

/-- The VariableDeclaration handler: discard the keyword, then handle the
    declarators. The declarations array of a parseable declaration is
    never empty; an empty one would fault reading declarations[0].start. -/
def handleVar (v : VarDeclNode) : Except Str (List (Range × Str) × List Str) :=
  match v.declarations with
  | [] => .error (cs "TypeError: declarations[0] is undefined")
  | d0 :: _ =>
    .ok (v.declarations.foldl varDeclStep ([(⟨v.start, d0.start⟩, [])], []))

/-- The FunctionDeclaration handler: rename the function to its
    dollar-prefixed form and assign the hoisted value at offset zero. -/
def handleFun (f : FunDeclNode) : List (Range × Str) × List Str :=
  ([(⟨f.id_start, f.id_stop⟩, '$' :: f.id_name),
    (⟨0, 0⟩, f.id_name ++ cs " = $" ++ f.id_name ++ cs ";")],
   [f.id_name])

/-- The ClassDeclaration handler: turn the statement into an assignment
    expression. -/
def handleClass (c : ClassDeclNode) : List (Range × Str) × List Str :=
  ([(⟨c.start, c.start⟩, c.id_name ++ cs " = "),
    (⟨c.stop, c.stop⟩, cs ";")],
   [c.id_name])

/-- The ExportNamedDeclaration handler strips the export keyword up to the
    start of node.declaration and dispatches the declaration to its
    handler. A bare export list (export of names with no attached
    declaration) has declaration null, and reading null.start throws. -/
def handleTopStmt : TopStmt → Except Str (List (Range × Str) × List Str)
| .varS v => handleVar v
| .funS f => .ok (handleFun f)
| .classS c => .ok (handleClass c)
| .exportNamedS _ none =>
  .error (cs "TypeError: null has no properties (reading start)")
| .exportNamedS start (some d) =>
  ((match d with
    | .varD v => handleVar v
    | .funD f => .ok (handleFun f)
    | .classD c => .ok (handleClass c)
    | .otherD _ => .ok ([], [])) :
      Except Str (List (Range × Str) × List Str)).map
    (fun inner => ((⟨start, declStart d⟩, ([] : Str)) :: inner.1, inner.2))
| .otherS => .ok ([], [])

/-- The fold of the handler table over tree.body; the first faulting
    handler aborts the walk, like a thrown TypeError. -/
def handleBody : List TopStmt → Except Str (List (Range × Str) × List Str)
| [] => .ok ([], [])
| s :: rest =>
  match handleTopStmt s, handleBody rest with
  | .ok head, .ok tail => .ok (head.1 ++ tail.1, head.2 ++ tail.2)
  | .error e, _ => .error e
  | .ok _, .error e => .error e

/-- The import, export, dynamic and main alterations of replize, in push
    order: imports erase to blanks; default exports become assignments to
    $default and star exports erase to blanks (bare named exports are
    skipped here and crash in the handler loop); dynamic script ranges
    become quoted injected specifiers plus blanks (a missing specifier
    renders as the text undefined, as JS string concatenation does); and
    every main site becomes the literal true. -/
def analysisAlterations (source : Str) (m : ModuleAnalysis)
    (dynamic_specifiers : List Str) : List (Range × Str) :=
  m.imports.map (fun i =>
    (⟨i.node_start, i.node_stop⟩, blanks source ⟨i.node_start, i.node_stop⟩))
  ++ m.exports.filterMap (fun e =>
    match e with
    | .defaultE start _ declarationStart =>
      some (⟨start, declarationStart⟩, cs "$default = ")
    | .allE start stop _ => some (⟨start, stop⟩, blanks source ⟨start, stop⟩)
    | .namedE _ _ _ => none)
  ++ m.dynamics.enum.map (fun nd =>
    (⟨nd.2.script_start, nd.2.script_stop⟩,
     '"' :: (dynamic_specifiers.getD nd.1 (cs "undefined")) ++ ['"']
       ++ blanks source ⟨nd.2.script_start, nd.2.script_stop⟩))
  ++ m.mains.map (fun mr => (⟨mr.start, mr.stop⟩, cs "true"))

/-- src: repl.js replize, up to the payload: the collected alterations and
    remembered variable names. When the top analysis waits, the payload is
    wrapped in an async function (prefix unshifted, suffix and the
    per-value await assignments pushed). -/
def replize_alterations (source : Str) (body : List TopStmt)
    (m : ModuleAnalysis) (t : TopInfo) (dynamic_specifiers : List Str) :
    Except Str (List (Range × Str) × List Str) :=
  match handleBody body with
  | .error e => .error e
  | .ok fromBody =>
    let base := analysisAlterations source m dynamic_specifiers ++ fromBody.1
    .ok (if t.wait then
        (⟨0, 0⟩, cs "(async function () \x7blet $await;") :: base
          ++ [(⟨source.length, source.length⟩, cs "\nreturn $await;\x7d());")]
          ++ t.values.map (fun v => (⟨v.start, v.start⟩, cs "$await = "))
      else base,
      fromBody.2)

/-- The payload of replize: the altered source that the harness embeds via
    JSON.stringify into the fixed template (which contributes no further
    edits to the payload itself). -/
def replize_payload (source : Str) (body : List TopStmt)
    (m : ModuleAnalysis) (t : TopInfo) (dynamic_specifiers : List Str) :
    Except Str Str :=
  (replize_alterations source body m t dynamic_specifiers).map
    (fun av => alter_string source av.1)

/-- src: repl.js module: the source server's rewrite replaces each
    statically imported source literal, each dynamic module-range, and
    each re-export source literal with the resolved, versioned and
    specified URL, the dynamic ranges padded with blanks. -/
def module_alterations (source : Str) (m : ModuleAnalysis)
    (specifiers : List Str) : List (Range × Str) :=
  m.imports.enum.map (fun ni =>
    (⟨ni.2.source.start, ni.2.source.stop⟩,
     '"' :: (specifiers.getD ni.1 (cs "undefined")) ++ ['"']))
  ++ m.dynamics.enum.map (fun nd =>
    (⟨nd.2.module_start, nd.2.module_stop⟩,
     '"' :: (specifiers.getD (m.imports.length + nd.1) (cs "undefined"))
       ++ ['"']
       ++ blanks source ⟨nd.2.module_start, nd.2.module_stop⟩))
  ++ (m.exports.filterMap exportSourceLit).enum.map (fun ns =>
    (⟨ns.2.start, ns.2.stop⟩,
     '"' :: (specifiers.getD (m.imports.length + m.dynamics.length + ns.1)
        (cs "undefined")) ++ ['"']))

/-- The rewritten module served over HTTP. -/
def module_payload (source : Str) (m : ModuleAnalysis)
    (specifiers : List Str) : Str :=
  alter_string source (module_alterations source m specifiers)

/-
Newline accounting for the rewrites (claims C2 and C4).
-/

/-- Newlines inside the span of a range. -/
def spanNL (source : Str) (r : Range) : Nat :=
  countNL (jsSlice source r.start r.stop)

theorem jsSplitChar_length (sep : Char) (l : Str) :
    (jsSplitChar sep l).length = l.count sep + 1 := by
  induction l with
  | nil => rfl
  | cons c rest ih =>
    simp only [jsSplitChar]
    rcases h : jsSplitChar sep rest with _ | ⟨hd, tl⟩
    · exact absurd h (jsSplitChar_ne_nil sep rest)
    · rw [h] at ih
      simp only [List.length_cons] at ih
      by_cases hc : c = sep
      · subst hc
        simp only [if_pos rfl, List.length_cons, List.count_cons,
          beq_self_eq_true, if_true]
        omega
      · have hbc : (c == sep) = false := by
          simp [hc]
        simp only [if_neg hc, List.length_cons, List.count_cons, hbc,
          Bool.false_eq_true, if_false]
        omega

theorem blanks_countNL (source : Str) (r : Range) :
    countNL (blanks source r) = spanNL source r := by
  unfold blanks spanNL countNL
  rw [jsSplitChar_length]
  simp [List.count_replicate]

theorem jsSlice_point (s : Str) (p : Nat) : jsSlice s p p = [] := by
  unfold jsSlice
  have hlen : (s.take p).length ≤ p := by
    simp [List.length_take]
  exact List.drop_eq_nil_of_le hlen

theorem spanNL_point (source : Str) (p : Nat) :
    spanNL source ⟨p, p⟩ = 0 := by
  unfold spanNL
  rw [jsSlice_point]
  rfl

theorem countNL_append (a b : Str) :
    countNL (a ++ b) = countNL a + countNL b := by
  unfold countNL
  exact List.count_append '\n' a b

theorem countNL_quote (x : Str) : countNL ('"' :: x) = countNL x := by
  unfold countNL
  simp [List.count_cons]

theorem countNL_split (s : Str) (a b : Nat) (hab : a ≤ b) :
    countNL (jsSliceFrom s a)
      = countNL (jsSlice s a b) + countNL (jsSliceFrom s b) := by
  have e1 : countNL (s.take b) = countNL (s.take a) + countNL (jsSlice s a b) := by
    conv_lhs => rw [← List.take_append_drop a (s.take b)]
    rw [countNL_append, List.take_take, min_eq_left hab]
    rfl
  have e2 : countNL s = countNL (s.take a) + countNL (jsSliceFrom s a) := by
    conv_lhs => rw [← List.take_append_drop a s]
    rw [countNL_append]
    rfl
  have e3 : countNL s = countNL (s.take b) + countNL (jsSliceFrom s b) := by
    conv_lhs => rw [← List.take_append_drop b s]
    rw [countNL_append]
    rfl
  omega

/-- Disjointness of an alteration list in stitching order: each range
    starts no earlier than the current end and ends no earlier than it
    starts. This is the documented precondition of alter_string (the
    ranges of the alterations must be disjoint). -/
def chained : Nat → List (Range × Str) → Bool
| _, [] => true
| e, (r, _) :: rest =>
  decide (e ≤ r.start) && decide (r.start ≤ r.stop) && chained r.stop rest

/-- Total newlines of the replacements of an alteration list. -/
def altRepl (alts : List (Range × Str)) : Nat :=
  (alts.map (fun a => countNL a.2)).sum

/-- Total newlines of the replaced spans of an alteration list. -/
def altSpan (source : Str) (alts : List (Range × Str)) : Nat :=
  (alts.map (fun a => spanNL source a.1)).sum

theorem altRepl_append (x y : List (Range × Str)) :
    altRepl (x ++ y) = altRepl x + altRepl y := by
  unfold altRepl
  rw [List.map_append, List.sum_append]

theorem altSpan_append (source : Str) (x y : List (Range × Str)) :
    altSpan source (x ++ y) = altSpan source x + altSpan source y := by
  unfold altSpan
  rw [List.map_append, List.sum_append]

theorem applyAlts_countNL (source : Str) :
    ∀ alts endPos, chained endPos alts = true →
    countNL (applyAlts source endPos alts) + altSpan source alts
      = countNL (jsSliceFrom source endPos) + altRepl alts := by
  intro alts
  induction alts with
  | nil =>
    intro e _
    simp [applyAlts, altSpan, altRepl]
  | cons a rest ih =>
    intro e hch
    obtain ⟨r, repl⟩ := a
    simp only [chained, Bool.and_eq_true, decide_eq_true_eq] at hch
    obtain ⟨⟨h1, h2⟩, h3⟩ := hch
    have hsub := ih r.stop h3
    have hd1 := countNL_split source e r.start h1
    have hd2 := countNL_split source r.start r.stop h2
    have hspan : spanNL source r = countNL (jsSlice source r.start r.stop) :=
      rfl
    simp only [applyAlts, altSpan, altRepl, List.map_cons, List.sum_cons,
      countNL_append] at hsub ⊢
    omega

theorem alter_string_countNL (source : Str) (alts : List (Range × Str))
    (hch : chained 0 (List.insertionSort altLe alts) = true) :
    countNL (alter_string source alts) + altSpan source alts
      = countNL source + altRepl alts := by
  unfold alter_string
  have hcore := applyAlts_countNL source (List.insertionSort altLe alts) 0 hch
  have hperm := List.perm_insertionSort altLe alts
  have hr : altRepl (List.insertionSort altLe alts) = altRepl alts := by
    unfold altRepl
    exact (hperm.map (fun a : Range × Str => countNL a.2)).sum_eq
  have hs : altSpan source (List.insertionSort altLe alts)
      = altSpan source alts := by
    unfold altSpan
    exact (hperm.map (fun a : Range × Str => spanNL source a.1)).sum_eq
  have hdrop : jsSliceFrom source 0 = source := by
    unfold jsSliceFrom
    simp
  rw [hr, hs, hdrop] at hcore
  omega

/-- Replacements that keep the span's newlines imply balanced totals. -/
theorem balance_of_pointwise (source : Str) (alts : List (Range × Str))
    (h : ∀ a ∈ alts, countNL a.2 = spanNL source a.1) :
    altRepl alts = altSpan source alts := by
  induction alts with
  | nil => rfl
  | cons a rest ih =>
    simp only [altRepl, altSpan, List.map_cons, List.sum_cons] at ih ⊢
    rw [h a (List.mem_cons_self a rest),
      ih (fun b hb => h b (List.mem_cons_of_mem a hb))]

theorem countNL_cons (c : Char) (x : Str) (hc : c ≠ '\n') :
    countNL (c :: x) = countNL x := by
  unfold countNL
  simp [List.count_cons, hc]

theorem countNL_getD (specs : List Str) (n : Nat)
    (hsp : ∀ sp ∈ specs, countNL sp = 0) :
    countNL (specs.getD n (cs "undefined")) = 0 := by
  rcases h : specs[n]? with _ | sp
  · rw [List.getD_eq_getElem?_getD, h]
    rfl
  · rw [List.getD_eq_getElem?_getD, h]
    exact hsp sp (List.getElem?_mem h)

theorem mem_of_mem_enumFrom {α : Type} (l : List α) :
    ∀ n p, p ∈ l.enumFrom n → p.2 ∈ l := by
  induction l with
  | nil => intro n p hp; simp [List.enumFrom] at hp
  | cons x rest ih =>
    intro n p hp
    simp only [List.enumFrom, List.mem_cons] at hp
    rcases hp with rfl | hp
    · exact List.mem_cons_self x rest
    · exact List.mem_cons_of_mem x (ih (n + 1) p hp)

theorem mem_of_mem_enum {α : Type} (l : List α) (p : Nat × α)
    (hp : p ∈ l.enum) : p.2 ∈ l :=
  mem_of_mem_enumFrom l 0 p hp

/-
Newline accounting for the unpadded replacements. The spans that replize
replaces without blank padding are the declaration keyword up to the
first declarator, the export keyword up to the attached declaration, the
default-export keyword span, and the main-site member ranges: their
newlines are lost, and the definitions below total them. Identifier
token spans and names are assumed to lie on one line and the injected
specifier strings to be newline-free, which the JavaScript grammar and
URL syntax force for every parseable source and resolved specifier.
-/

/-- Newlines inside the unpadded span of a declaration handler: the
    discarded keyword span of a variable declaration. -/
def declStrippedNL (source : Str) : DeclNode → Nat
| .varD v =>
  match v.declarations with
  | [] => 0
  | d0 :: _ => spanNL source ⟨v.start, d0.start⟩
| .funD _ => 0
| .classD _ => 0
| .otherD _ => 0

/-- Newlines inside the unpadded spans of a top-level statement: the
    discarded keyword span, plus the discarded export keyword span of an
    exported declaration. -/
def stmtStrippedNL (source : Str) : TopStmt → Nat
| .varS v => declStrippedNL source (.varD v)
| .funS _ => 0
| .classS _ => 0
| .exportNamedS start (some d) =>
  spanNL source ⟨start, declStart d⟩ + declStrippedNL source d
| .exportNamedS _ none => 0
| .otherS => 0

/-- Newlines inside the unpadded span of an export node: the discarded
    default-export keyword span. -/
def exportStrippedNL (source : Str) : ExportNode → Nat
| .defaultE start _ declarationStart =>
  spanNL source ⟨start, declarationStart⟩
| .namedE _ _ _ => 0
| .allE _ _ _ => 0

/-- Total newlines of all spans that REPL-ization replaces without blank
    padding: the stripped keyword spans of the export analysis and of the
    top-level statements, and the main sites replaced by the literal
    true. -/
def replizeStrippedNL (source : Str) (body : List TopStmt)
    (m : ModuleAnalysis) : Nat :=
  (m.exports.map (exportStrippedNL source)).sum
    + (m.mains.map (fun mr => spanNL source ⟨mr.start, mr.stop⟩)).sum
    + (body.map (stmtStrippedNL source)).sum

/-- The identifier token span and name of a declaration lie on one line,
    as the JavaScript grammar guarantees for every parseable source. -/
def declNamesFlat (source : Str) : DeclNode → Bool
| .varD _ => true
| .funD f =>
  decide (countNL (jsSlice source f.id_start f.id_stop) = 0)
    && decide (countNL f.id_name = 0)
| .classD c => decide (countNL c.id_name = 0)
| .otherD _ => true

/-- The identifier tokens of a top-level statement lie on one line. -/
def stmtNamesFlat (source : Str) : TopStmt → Bool
| .varS _ => true
| .funS f => declNamesFlat source (.funD f)
| .classS c => declNamesFlat source (.classD c)
| .exportNamedS _ (some d) => declNamesFlat source d
| .exportNamedS _ none => true
| .otherS => true

/-- The filterMap body of the export alterations of replize, named for
    the accounting lemmas. -/
def exportAlt (source : Str) : ExportNode → Option (Range × Str)
| .defaultE start _ declarationStart =>
  some (⟨start, declarationStart⟩, cs "$default = ")
| .allE start stop _ => some (⟨start, stop⟩, blanks source ⟨start, stop⟩)
| .namedE _ _ _ => none

/-- All unpadded material of the server rewrite lies on one line: the
    replaced string literal spans and the injected specifiers. -/
def serverFlat (source : Str) (m : ModuleAnalysis) (specs : List Str) :
    Bool :=
  m.imports.all (fun i =>
      decide (spanNL source ⟨i.source.start, i.source.stop⟩ = 0))
    && (m.exports.filterMap exportSourceLit).all (fun s =>
      decide (spanNL source ⟨s.start, s.stop⟩ = 0))
    && specs.all (fun sp => decide (countNL sp = 0))

theorem varDeclStep_delta (source : Str) (d : Declarator)
    (acc : List (Range × Str) × List Str) :
    altSpan source (varDeclStep acc d).1 + altRepl acc.1
      = altRepl (varDeclStep acc d).1 + altSpan source acc.1 := by
  unfold varDeclStep
  rcases d.init with _ | initRange
  · simp only [altRepl_append, altSpan_append]
    have e1 : altSpan source
        [((⟨patStop d.id, patStop d.id⟩ : Range), cs " = undefined")] = 0 := by
      simp only [altSpan, List.map_cons, List.map_nil, List.sum_cons,
        List.sum_nil, spanNL_point]
      omega
    have e2 : altRepl
        [((⟨patStop d.id, patStop d.id⟩ : Range), cs " = undefined")] = 0 := by
      simp only [altRepl, List.map_cons, List.map_nil, List.sum_cons,
        List.sum_nil]
      rfl
    omega
  · rcases d.id with ⟨name, a, b⟩ | ⟨pstart, pstop, props⟩ | ⟨astart, astop, elems⟩
    · show altSpan source acc.1 + altRepl acc.1
        = altRepl acc.1 + altSpan source acc.1
      omega
    · simp only [altRepl_append, altSpan_append]
      have e1 : altSpan source [((⟨pstart, pstart⟩ : Range), cs "("),
          ((⟨initRange.stop, initRange.stop⟩ : Range), cs ")")] = 0 := by
        simp only [altSpan, List.map_cons, List.map_nil, List.sum_cons,
          List.sum_nil, spanNL_point]
        omega
      have e2 : altRepl [((⟨pstart, pstart⟩ : Range), cs "("),
          ((⟨initRange.stop, initRange.stop⟩ : Range), cs ")")] = 0 := by
        simp only [altRepl, List.map_cons, List.map_nil, List.sum_cons,
          List.sum_nil]
        rfl
      omega
    · show altSpan source acc.1 + altRepl acc.1
        = altRepl acc.1 + altSpan source acc.1
      omega

theorem foldl_varDeclStep_delta (source : Str) (ds : List Declarator) :
    ∀ acc, altSpan source (ds.foldl varDeclStep acc).1
        + altRepl acc.1
      = altRepl (ds.foldl varDeclStep acc).1 + altSpan source acc.1 := by
  induction ds with
  | nil => intro acc; simp only [List.foldl_nil]; omega
  | cons d rest ih =>
    intro acc
    have h1 := varDeclStep_delta source d acc
    have h2 := ih (varDeclStep acc d)
    simp only [List.foldl_cons]
    omega

theorem handleVar_stripped (source : Str) (v : VarDeclNode)
    (res : List (Range × Str) × List Str) (h : handleVar v = .ok res) :
    altSpan source res.1 = altRepl res.1 + declStrippedNL source (.varD v) := by
  obtain ⟨vstart, vdecls⟩ := v
  rcases vdecls with _ | ⟨d0, drest⟩
  · simp only [handleVar] at h
    exact Except.noConfusion h
  · simp only [handleVar, Except.ok.injEq] at h
    subst h
    have hd : altSpan source ((d0 :: drest).foldl varDeclStep
          ([((⟨vstart, d0.start⟩ : Range), ([] : Str))], [])).1
        + altRepl [((⟨vstart, d0.start⟩ : Range), ([] : Str))]
      = altRepl ((d0 :: drest).foldl varDeclStep
          ([((⟨vstart, d0.start⟩ : Range), ([] : Str))], [])).1
        + altSpan source [((⟨vstart, d0.start⟩ : Range), ([] : Str))] :=
      foldl_varDeclStep_delta source (d0 :: drest)
        ([((⟨vstart, d0.start⟩ : Range), ([] : Str))], [])
    have e1 : altRepl [((⟨vstart, d0.start⟩ : Range), ([] : Str))] = 0 := by
      simp only [altRepl, List.map_cons, List.map_nil, List.sum_cons,
        List.sum_nil]
      rfl
    have e2 : altSpan source [((⟨vstart, d0.start⟩ : Range), ([] : Str))]
        = spanNL source ⟨vstart, d0.start⟩ := by
      simp only [altSpan, List.map_cons, List.map_nil, List.sum_cons,
        List.sum_nil]
      omega
    have e3 : declStrippedNL source (.varD ⟨vstart, d0 :: drest⟩)
        = spanNL source ⟨vstart, d0.start⟩ := rfl
    omega

theorem handleFun_balance (source : Str) (f : FunDeclNode)
    (hid : countNL (jsSlice source f.id_start f.id_stop) = 0)
    (hname : countNL f.id_name = 0) :
    altRepl (handleFun f).1 = altSpan source (handleFun f).1 := by
  unfold handleFun altRepl altSpan
  simp only [List.map_cons, List.map_nil, List.sum_cons, List.sum_nil]
  rw [countNL_cons '$' f.id_name (by decide)]
  simp only [countNL_append]
  have h1 : countNL (cs " = $") = 0 := rfl
  have h2 : countNL (cs ";") = 0 := rfl
  have h3 : spanNL source ⟨f.id_start, f.id_stop⟩
      = countNL (jsSlice source f.id_start f.id_stop) := rfl
  rw [spanNL_point]
  omega

theorem handleClass_balance (source : Str) (c : ClassDeclNode)
    (hname : countNL c.id_name = 0) :
    altRepl (handleClass c).1 = altSpan source (handleClass c).1 := by
  unfold handleClass altRepl altSpan
  simp only [List.map_cons, List.map_nil, List.sum_cons, List.sum_nil]
  rw [countNL_append, spanNL_point, spanNL_point]
  have h1 : countNL (cs " = ") = 0 := rfl
  have h2 : countNL (cs ";") = 0 := rfl
  omega

theorem handleTopStmt_stripped (source : Str) (s : TopStmt)
    (res : List (Range × Str) × List Str) (h : handleTopStmt s = .ok res)
    (hn : stmtNamesFlat source s = true) :
    altSpan source res.1 = altRepl res.1 + stmtStrippedNL source s := by
  match s with
  | .varS v =>
    have hz : stmtStrippedNL source (.varS v)
        = declStrippedNL source (.varD v) := rfl
    rw [hz]
    exact handleVar_stripped source v res h
  | .funS f =>
    simp only [handleTopStmt, Except.ok.injEq] at h
    subst h
    unfold stmtNamesFlat declNamesFlat at hn
    simp only [Bool.and_eq_true, decide_eq_true_eq] at hn
    have hb := handleFun_balance source f hn.1 hn.2
    have hz : stmtStrippedNL source (.funS f) = 0 := rfl
    omega
  | .classS c =>
    simp only [handleTopStmt, Except.ok.injEq] at h
    subst h
    unfold stmtNamesFlat declNamesFlat at hn
    simp only [decide_eq_true_eq] at hn
    have hb := handleClass_balance source c hn
    have hz : stmtStrippedNL source (.classS c) = 0 := rfl
    omega
  | .exportNamedS start none => cases h
  | .exportNamedS start (some d) =>
    unfold stmtNamesFlat at hn
    have hinner : ∀ inner : List (Range × Str) × List Str,
        res = ((⟨start, declStart d⟩, ([] : Str)) :: inner.1, inner.2) →
        altSpan source inner.1 = altRepl inner.1 + declStrippedNL source d →
        altSpan source res.1
          = altRepl res.1
            + (spanNL source ⟨start, declStart d⟩
              + declStrippedNL source d) := by
      intro inner hres hbal
      subst hres
      simp only [altRepl, altSpan, List.map_cons, List.sum_cons]
      have h0 : countNL ([] : Str) = 0 := rfl
      unfold altRepl altSpan at hbal
      simp only [spanNL] at hbal ⊢
      omega
    have hz : stmtStrippedNL source (.exportNamedS start (some d))
        = spanNL source ⟨start, declStart d⟩ + declStrippedNL source d := rfl
    rw [hz]
    match d, h, hn with
    | .varD v, h, hn =>
      simp only [handleTopStmt, Except.map] at h
      rcases hv : handleVar v with e | inner
      · rw [hv] at h
        cases h
      · rw [hv] at h
        simp only [Except.ok.injEq] at h
        exact hinner inner h.symm
          (handleVar_stripped source v inner hv)
    | .funD f, h, hn =>
      simp only [handleTopStmt, Except.map, Except.ok.injEq] at h
      unfold declNamesFlat at hn
      simp only [Bool.and_eq_true, decide_eq_true_eq] at hn
      have hb := handleFun_balance source f hn.1 hn.2
      have hzf : declStrippedNL source (.funD f) = 0 := rfl
      refine hinner (handleFun f) h.symm ?_
      rw [hzf, Nat.add_zero]
      exact hb.symm
    | .classD c, h, hn =>
      simp only [handleTopStmt, Except.map, Except.ok.injEq] at h
      unfold declNamesFlat at hn
      simp only [decide_eq_true_eq] at hn
      have hb := handleClass_balance source c hn
      have hzc : declStrippedNL source (.classD c) = 0 := rfl
      refine hinner (handleClass c) h.symm ?_
      rw [hzc, Nat.add_zero]
      exact hb.symm
    | .otherD k, h, hn =>
      simp only [handleTopStmt, Except.map, Except.ok.injEq] at h
      exact hinner ([], []) h.symm rfl
  | .otherS =>
    simp only [handleTopStmt, Except.ok.injEq] at h
    subst h
    rfl

theorem handleBody_stripped (source : Str) (body : List TopStmt)
    (res : List (Range × Str) × List Str) (h : handleBody body = .ok res)
    (hn : body.all (stmtNamesFlat source) = true) :
    altSpan source res.1
      = altRepl res.1 + (body.map (stmtStrippedNL source)).sum := by
  induction body generalizing res with
  | nil =>
    simp only [handleBody, Except.ok.injEq] at h
    subst h
    rfl
  | cons s rest ih =>
    simp only [List.all_cons, Bool.and_eq_true] at hn
    unfold handleBody at h
    rcases hs : handleTopStmt s with e | head <;> rw [hs] at h
    · cases h
    · rcases hr : handleBody rest with e | tail <;> rw [hr] at h
      · cases h
      · simp only [Except.ok.injEq] at h
        subst h
        simp only [altRepl_append, altSpan_append, List.map_cons,
          List.sum_cons]
        have h1 := handleTopStmt_stripped source s head hs hn.1
        have h2 := ih tail hr hn.2
        omega

theorem module_alterations_balance (source : Str) (m : ModuleAnalysis)
    (specs : List Str)
    (him : ∀ i ∈ m.imports, spanNL source ⟨i.source.start, i.source.stop⟩ = 0)
    (hexp : ∀ s ∈ m.exports.filterMap exportSourceLit,
      spanNL source ⟨s.start, s.stop⟩ = 0)
    (hsp : ∀ sp ∈ specs, countNL sp = 0) :
    altRepl (module_alterations source m specs)
      = altSpan source (module_alterations source m specs) := by
  apply balance_of_pointwise
  intro a ha
  unfold module_alterations at ha
  simp only [List.mem_append] at ha
  rcases ha with (h1 | h2) | h3
  · obtain ⟨ni, hni, rfl⟩ := List.mem_map.mp h1
    show countNL ('"' :: (specs.getD ni.1 (cs "undefined") ++ ['"']))
      = spanNL source ⟨ni.2.source.start, ni.2.source.stop⟩
    rw [countNL_cons '"' _ (by decide)]
    simp only [countNL_append]
    rw [countNL_getD specs ni.1 hsp,
      him ni.2 (mem_of_mem_enum m.imports ni hni)]
    rfl
  · obtain ⟨nd, _, rfl⟩ := List.mem_map.mp h2
    show countNL ('"' :: (specs.getD (m.imports.length + nd.1) (cs "undefined")
        ++ ['"'] ++ blanks source ⟨nd.2.module_start, nd.2.module_stop⟩))
      = spanNL source ⟨nd.2.module_start, nd.2.module_stop⟩
    rw [countNL_cons '"' _ (by decide)]
    simp only [countNL_append]
    rw [countNL_getD specs _ hsp, blanks_countNL]
    have hq : countNL ['"'] = 0 := rfl
    omega
  · obtain ⟨ns, hns, rfl⟩ := List.mem_map.mp h3
    show countNL ('"' :: (specs.getD
        (m.imports.length + m.dynamics.length + ns.1) (cs "undefined")
        ++ ['"']))
      = spanNL source ⟨ns.2.start, ns.2.stop⟩
    rw [countNL_cons '"' _ (by decide)]
    simp only [countNL_append]
    rw [countNL_getD specs _ hsp,
      hexp ns.2 (mem_of_mem_enum (m.exports.filterMap exportSourceLit) ns hns)]
    rfl

theorem altRepl_cons (a : Range × Str) (l : List (Range × Str)) :
    altRepl (a :: l) = countNL a.2 + altRepl l := by
  simp [altRepl]

theorem altSpan_cons (source : Str) (a : Range × Str)
    (l : List (Range × Str)) :
    altSpan source (a :: l) = spanNL source a.1 + altSpan source l := by
  simp [altSpan]

theorem valuesAlts_repl_zero (vals : List Range) :
    altRepl (vals.map (fun v => (⟨v.start, v.start⟩, cs "$await = "))) = 0 := by
  induction vals with
  | nil => rfl
  | cons v rest ih =>
    simp only [List.map_cons, altRepl, List.sum_cons] at ih ⊢
    rw [ih]
    decide

theorem valuesAlts_span_zero (source : Str) (vals : List Range) :
    altSpan source (vals.map (fun v => (⟨v.start, v.start⟩, cs "$await = ")))
      = 0 := by
  induction vals with
  | nil => rfl
  | cons v rest ih =>
    simp only [List.map_cons, altSpan, List.sum_cons] at ih ⊢
    rw [ih, spanNL_point]

theorem exportsAlts_stripped (source : Str) :
    ∀ exps : List ExportNode,
    altSpan source (exps.filterMap (exportAlt source))
      = altRepl (exps.filterMap (exportAlt source))
        + (exps.map (exportStrippedNL source)).sum := by
  intro exps
  induction exps with
  | nil => rfl
  | cons e rest ih =>
    match e with
    | .defaultE start stop dstart =>
      have hf : exportAlt source (.defaultE start stop dstart)
          = some (⟨start, dstart⟩, cs "$default = ") := rfl
      simp only [List.filterMap_cons, hf, List.map_cons, List.sum_cons]
      simp only [altSpan_cons, altRepl_cons]
      have e1 : countNL (cs "$default = ") = 0 := rfl
      have e2 : exportStrippedNL source (.defaultE start stop dstart)
          = spanNL source ⟨start, dstart⟩ := rfl
      omega
    | .allE start stop lit =>
      have hf : exportAlt source (.allE start stop lit)
          = some (⟨start, stop⟩, blanks source ⟨start, stop⟩) := rfl
      simp only [List.filterMap_cons, hf, List.map_cons, List.sum_cons]
      simp only [altSpan_cons, altRepl_cons]
      have e1 := blanks_countNL source (⟨start, stop⟩ : Range)
      have e2 : exportStrippedNL source (.allE start stop lit) = 0 := rfl
      omega
    | .namedE a b c =>
      have hf : exportAlt source (.namedE a b c) = none := rfl
      simp only [List.filterMap_cons, hf, List.map_cons, List.sum_cons]
      have e2 : exportStrippedNL source (.namedE a b c) = 0 := rfl
      omega

theorem mainsAlts_stripped (source : Str) :
    ∀ mains : List MainRecord,
    altSpan source (mains.map (fun mr => (⟨mr.start, mr.stop⟩, cs "true")))
      = altRepl (mains.map (fun mr => (⟨mr.start, mr.stop⟩, cs "true")))
        + (mains.map (fun mr => spanNL source ⟨mr.start, mr.stop⟩)).sum := by
  intro mains
  induction mains with
  | nil => rfl
  | cons mr rest ih =>
    simp only [List.map_cons, List.sum_cons]
    simp only [altSpan_cons, altRepl_cons]
    have e1 : countNL (cs "true") = 0 := rfl
    omega

theorem analysisAlterations_eq (source : Str) (m : ModuleAnalysis)
    (specs : List Str) :
    analysisAlterations source m specs
      = m.imports.map (fun i =>
          (⟨i.node_start, i.node_stop⟩,
            blanks source ⟨i.node_start, i.node_stop⟩))
        ++ m.exports.filterMap (exportAlt source)
        ++ m.dynamics.enum.map (fun nd =>
          (⟨nd.2.script_start, nd.2.script_stop⟩,
           '"' :: (specs.getD nd.1 (cs "undefined")) ++ ['"']
             ++ blanks source ⟨nd.2.script_start, nd.2.script_stop⟩))
        ++ m.mains.map (fun mr => (⟨mr.start, mr.stop⟩, cs "true")) := rfl

theorem analysisAlterations_stripped (source : Str) (m : ModuleAnalysis)
    (specs : List Str) (hsp : ∀ sp ∈ specs, countNL sp = 0) :
    altSpan source (analysisAlterations source m specs)
      = altRepl (analysisAlterations source m specs)
        + ((m.exports.map (exportStrippedNL source)).sum
          + (m.mains.map
            (fun mr => spanNL source ⟨mr.start, mr.stop⟩)).sum) := by
  rw [analysisAlterations_eq source m specs]
  simp only [altRepl_append, altSpan_append]
  have h1 : altRepl (m.imports.map (fun i =>
        ((⟨i.node_start, i.node_stop⟩ : Range),
          blanks source ⟨i.node_start, i.node_stop⟩)))
      = altSpan source (m.imports.map (fun i =>
        ((⟨i.node_start, i.node_stop⟩ : Range),
          blanks source ⟨i.node_start, i.node_stop⟩))) := by
    apply balance_of_pointwise
    intro a ha
    obtain ⟨i, _, rfl⟩ := List.mem_map.mp ha
    exact blanks_countNL source _
  have h2 := exportsAlts_stripped source m.exports
  have h3 : altRepl (m.dynamics.enum.map (fun nd =>
        ((⟨nd.2.script_start, nd.2.script_stop⟩ : Range),
         '"' :: (specs.getD nd.1 (cs "undefined")) ++ ['"']
           ++ blanks source ⟨nd.2.script_start, nd.2.script_stop⟩)))
      = altSpan source (m.dynamics.enum.map (fun nd =>
        ((⟨nd.2.script_start, nd.2.script_stop⟩ : Range),
         '"' :: (specs.getD nd.1 (cs "undefined")) ++ ['"']
           ++ blanks source ⟨nd.2.script_start, nd.2.script_stop⟩))) := by
    apply balance_of_pointwise
    intro a ha
    obtain ⟨nd, _, rfl⟩ := List.mem_map.mp ha
    show countNL ('"' :: (specs.getD nd.1 (cs "undefined") ++ ['"']
        ++ blanks source ⟨nd.2.script_start, nd.2.script_stop⟩))
      = spanNL source ⟨nd.2.script_start, nd.2.script_stop⟩
    rw [countNL_cons '"' _ (by decide)]
    simp only [countNL_append]
    rw [countNL_getD specs nd.1 hsp, blanks_countNL]
    have hq : countNL ['"'] = 0 := rfl
    omega
  have h4 := mainsAlts_stripped source m.mains
  omega

theorem replize_stripped (source : Str) (body : List TopStmt)
    (m : ModuleAnalysis) (t : TopInfo) (specs : List Str)
    (alts : List (Range × Str)) (vars : List Str)
    (h : replize_alterations source body m t specs = .ok (alts, vars))
    (hn : body.all (stmtNamesFlat source) = true)
    (hsp : specs.all (fun sp => decide (countNL sp = 0)) = true) :
    altRepl alts + replizeStrippedNL source body m
      = altSpan source alts + (if t.wait then 1 else 0) := by
  unfold replize_alterations at h
  rcases hb : handleBody body with e | fromBody <;> rw [hb] at h
  · exact Except.noConfusion h
  · simp only [Except.ok.injEq, Prod.mk.injEq] at h
    obtain ⟨halts, _⟩ := h
    simp only [List.all_eq_true, decide_eq_true_eq] at hsp
    have hA := analysisAlterations_stripped source m specs hsp
    have hB := handleBody_stripped source body fromBody hb hn
    unfold replizeStrippedNL
    cases hw : t.wait
    · rw [hw, if_neg (by decide)] at halts
      subst halts
      rw [if_neg (by decide)]
      simp only [altRepl_append, altSpan_append]
      omega
    · rw [hw, if_pos rfl] at halts
      subst halts
      rw [if_pos rfl]
      simp only [altRepl_cons, altSpan_cons, altRepl_append, altSpan_append]
      have e1 : countNL (cs "(async function () \x7blet $await;") = 0 := rfl
      have e6 : countNL (cs "\nreturn $await;\x7d());") = 1 := rfl
      have e7 : spanNL source ⟨source.length, source.length⟩ = 0 :=
        spanNL_point source source.length
      have e11 : altRepl ([] : List (Range × Str)) = 0 := rfl
      have e12 : altSpan source ([] : List (Range × Str)) = 0 := rfl
      have e8 := valuesAlts_repl_zero t.values
      have e9 := valuesAlts_span_zero source t.values
      have e10 : spanNL source (⟨0, 0⟩ : Range) = 0 := spanNL_point source 0
      omega

/-- C2 counterexample: the claim as stated is false, in both directions.
    First, REPL-izing the one-line module of a single top-level await
    statement produces a two-line payload: the async wrapper appends a
    final line with the return of $await. Second, newline loss needs no
    await at all: the parseable two-line declaration whose keyword is
    followed by a line break REPL-izes to a one-line payload, because the
    discarded keyword span is replaced by the empty string rather than
    padded. -/
theorem C2_line_count_not_preserved :
    ((replize_payload (cs "await 0;") [.otherS] emptyAnalysis
        ⟨[⟨0, 8⟩], true⟩ []).map countNL = .ok 1
      ∧ countNL (cs "await 0;") = 0)
    ∧ (replize_payload (cs "const\nx = 1;")
          [.varS ⟨0, [⟨6, .identP (cs "x") 6 7, some ⟨10, 11⟩⟩]⟩]
          emptyAnalysis ⟨[], false⟩ []
        = .ok (cs "x = 1;")
      ∧ countNL (cs "const\nx = 1;") = 1
      ∧ countNL (cs "x = 1;") = 0) := by
  refine ⟨⟨?_, ?_⟩, ?_, ?_, ?_⟩ <;> decide

/-- C2 amended: exact newline accounting for both rewrites. The source
    server's rewrite keeps the line count of the input exactly. The
    REPL-ization payload satisfies newlines of the payload plus newlines
    of the stripped spans equals newlines of the source plus one if the
    top analysis waits: blank-padded erasures keep their newlines, the
    spans stripped without padding (the declaration keyword up to the
    first declarator, the export keyword up to the attached declaration,
    the default-export keyword span and the main-site member ranges)
    lose theirs, and the async wrapper appends one extra final line.
    Side conditions: disjoint alteration ranges, identifier tokens on a
    single line and injected specifier strings without newlines, all of
    which hold for parseable sources and URL specifiers. -/
theorem C2_line_count_accounting (source : Str) (body : List TopStmt)
    (m : ModuleAnalysis) (t : TopInfo) (specs : List Str)
    (alts : List (Range × Str)) (vars : List Str) (srvSpecs : List Str) :
    (replize_alterations source body m t specs = .ok (alts, vars) →
      chained 0 (List.insertionSort altLe alts) = true →
      body.all (stmtNamesFlat source) = true →
      specs.all (fun sp => decide (countNL sp = 0)) = true →
      countNL (alter_string source alts) + replizeStrippedNL source body m
        = countNL source + (if t.wait then 1 else 0))
    ∧ (chained 0 (List.insertionSort altLe
          (module_alterations source m srvSpecs)) = true →
      serverFlat source m srvSpecs = true →
      countNL (module_payload source m srvSpecs) = countNL source) := by
  constructor
  · intro h hch hn hsp
    have hstr := replize_stripped source body m t specs alts vars h hn hsp
    have hcore := alter_string_countNL source alts hch
    omega
  · intro hch hflat
    unfold serverFlat at hflat
    simp only [Bool.and_eq_true, List.all_eq_true, decide_eq_true_eq] at hflat
    obtain ⟨⟨him, hexp⟩, hsp⟩ := hflat
    have hbal := module_alterations_balance source m srvSpecs him hexp hsp
    have hcore := alter_string_countNL source
      (module_alterations source m srvSpecs) hch
    unfold module_payload
    omega

/-- C2 witness: the accounting applied to the two-line declaration whose
    keyword line break is stripped, giving a payload with one line fewer
    and no await involved, and to a two-line module with one static
    specifier rewritten by the server, which keeps its line count. -/
theorem C2_line_count_accounting_witness :
    countNL (alter_string (cs "const\nx = 1;") [(⟨0, 6⟩, [])])
        + replizeStrippedNL (cs "const\nx = 1;")
          [.varS ⟨0, [⟨6, .identP (cs "x") 6 7, some ⟨10, 11⟩⟩]⟩]
          emptyAnalysis
      = countNL (cs "const\nx = 1;")
        + (if (⟨[], false⟩ : TopInfo).wait then 1 else 0)
    ∧ countNL (module_payload (cs "import a from \"./a.js\";\n1;")
        ⟨[⟨0, 23, ⟨14, 22, cs "./a.js"⟩⟩], [], [], []⟩
        [cs "/v0/ab12/a.js"])
      = countNL (cs "import a from \"./a.js\";\n1;") := by
  have h1 := C2_line_count_accounting (cs "const\nx = 1;")
    [.varS ⟨0, [⟨6, .identP (cs "x") 6 7, some ⟨10, 11⟩⟩]⟩]
    emptyAnalysis ⟨[], false⟩ [] [(⟨0, 6⟩, [])] [cs "x"] []
  have h2 := C2_line_count_accounting (cs "import a from \"./a.js\";\n1;")
    [.otherS, .otherS] ⟨[⟨0, 23, ⟨14, 22, cs "./a.js"⟩⟩], [], [], []⟩
    ⟨[⟨24, 26⟩], false⟩ [] [] [] [cs "/v0/ab12/a.js"]
  exact ⟨h1.1 (by decide) (by decide) (by decide) (by decide),
    h2.2 (by decide) (by decide)⟩

/-- C4: the claim is right and the code is wrong. On a module whose second
    line is a bare named export list, the ExportNamedDeclaration handler
    reads node.declaration.start with declaration null and throws instead
    of producing a script; the export loop had already skipped the node
    because its type is ExportNamedDeclaration, so it is never erased. The
    second conjunct shows the export-star half of the claim behaving as
    documented: an export all statement is erased with line-preserving
    blanks and the rest of the source is kept. -/
theorem C4_bare_export_list_faults :
    replize_payload (cs "const frog = 1;\nexport \x7bfrog\x7d;")
        [.varS ⟨0, [⟨6, .identP (cs "frog") 6 10, some ⟨13, 14⟩⟩]⟩,
          .exportNamedS 16 none]
        ⟨[], [.namedE 16 30 none], [], []⟩ ⟨[], false⟩ []
      = .error (cs "TypeError: null has no properties (reading start)")
    ∧ replize_payload (cs "export * from \"./m.js\";\n1;")
        [.otherS, .otherS]
        ⟨[], [.allE 0 23 ⟨14, 22, cs "./m.js"⟩], [], []⟩
        ⟨[⟨24, 26⟩], false⟩ []
      = .ok (cs "\n1;") := by
  constructor
  · decide
  · decide

end Replete
